import Mathlib

/-!
Verification of the CPSS resumable-harvest pipeline.

This file gives a shallow embedding of the Python data-collection scripts
(`1a_modat_host_domain_to_ip.py`, `2_modat_service_api.py`,
`3_process_json_to_csv.py`, `4_retrieve_cve_info.py`,
`6_modat_data_validation.py`) and proves properties of the embedded
definitions: checkpoint atomicity, resume semantics, retry/backoff shape,
merge precedence, JSON flattening, dataset fingerprinting, domain matching
and completion-index scanning.

Conventions: Python dicts are association lists updated in place
(`dictSet`), Python sets of naturals are sorted duplicate-free lists,
strings are manipulated through their character lists so that every
definition evaluates by kernel reduction.
-/

set_option autoImplicit false

universe u v

variable {α : Type u} {β : Type v}

/-! ### Association-list helpers (Python `dict` semantics) -/

/-- `d[k] = v` on an insertion-ordered dict: update the first binding in
place, or append a fresh binding at the end. -/
def dictSet [DecidableEq α] : List (α × β) → α → β → List (α × β)
  | [], k, v => [(k, v)]
  | (k', v') :: rest, k, v =>
    if k = k' then (k', v) :: rest else (k', v') :: dictSet rest k v

/-- `del d[k]` (removes every binding of `k`). -/
def dictRemove [DecidableEq α] (l : List (α × β)) (k : α) : List (α × β) :=
  l.filter (fun kv => kv.1 ≠ k)

/-- `d.update(e)`: fold the bindings of `e` into `d` left to right. -/
def dictMerge [DecidableEq α] (d e : List (α × β)) : List (α × β) :=
  e.foldl (fun acc kv => dictSet acc kv.1 kv.2) d

/-- Membership-preserving set insertion for Python `set.add`. -/
def addNoDup [DecidableEq α] (l : List α) (x : α) : List α :=
  if x ∈ l then l else l ++ [x]

/-! ### Python string primitives over character lists -/

/-- `s.lower()` (ASCII case folding, which is all the pipeline needs). -/
def pyLower (s : String) : String := String.mk (s.data.map Char.toLower)

/-- Drop leading characters satisfying `p`. -/
def dropLeading (p : Char → Bool) : List Char → List Char
  | [] => []
  | c :: r => if p c then dropLeading p r else c :: r

/-- Python `s.strip(chars)` realised with a predicate: drop matching
characters from both ends. -/
def stripChars (p : Char → Bool) (l : List Char) : List Char :=
  ((dropLeading p ((dropLeading p l).reverse)).reverse)

/-- `s.strip()`: strip ASCII whitespace from both ends. -/
def pyStrip (s : String) : String :=
  String.mk (stripChars (fun c => c = ' ' ∨ c = '\t' ∨ c = '\n' ∨ c = '\r') s.data)

/-- `s.strip(".")`. -/
def pyStripDots (s : String) : String :=
  String.mk (stripChars (fun c => c = '.') s.data)

/-- `s.endswith(t)`. -/
def pyEndsWith (s t : String) : Bool := t.data.isSuffixOf s.data

/-- `s.startswith(t)`. -/
def pyStartsWith (s t : String) : Bool := t.data.isPrefixOf s.data

/-- Replace one character by another everywhere (`s.replace(c, d)` for
single-character arguments). -/
def pyReplaceChar (s : String) (c d : Char) : String :=
  String.mk (s.data.map (fun x => if x = c then d else x))

/-- Python `str.split(sep)` for a single-character separator; always
returns at least one (possibly empty) field. -/
def splitChar (sep : Char) : List Char → List (List Char)
  | [] => [[]]
  | x :: r =>
    match splitChar sep r with
    | [] => [[x]]
    | h :: t => if x = sep then [] :: h :: t else (x :: h) :: t

/-- `sep.join(parts)` over character lists. -/
def joinChar (sep : Char) : List (List Char) → List Char
  | [] => []
  | [p] => p
  | p :: q :: r => p ++ sep :: joinChar sep (q :: r)

/-- `";".join(strs)` and friends. -/
def joinStr (sep : String) : List String → String
  | [] => ""
  | [s] => s
  | s :: t :: r => s ++ sep ++ joinStr sep (t :: r)

/-- Code-point lexicographic `≤` on strings, the order Python `sorted`
uses. -/
def strLeb (a b : String) : Bool :=
  go a.data b.data
where
  go : List Char → List Char → Bool
    | [], _ => true
    | _ :: _, [] => false
    | x :: xs, y :: ys =>
      if x.toNat < y.toNat then true
      else if y.toNat < x.toNat then false
      else go xs ys

/-- Insertion sort by a boolean comparison (stable, like Python `sorted`). -/
def insertSorted (le : α → α → Bool) (x : α) : List α → List α
  | [] => [x]
  | y :: r => if le x y then x :: y :: r else y :: insertSorted le x r

/-- Python `sorted`. -/
def pySorted (le : α → α → Bool) (l : List α) : List α :=
  l.foldr (insertSorted le) []

/-! ### Domain-to-company matching
(`3_process_json_to_csv.py` and `1a_modat_host_domain_to_ip.py`) -/

/-- `extract_base_from_fqdn`: `(fqdn or "").strip().lower().strip(".")`. -/
def extract_base_from_fqdn (fqdn : String) : String :=
  pyStripDots (pyLower (pyStrip fqdn))

/-- The `matches` set accumulated by `match_nidv_company`: for each fqdn,
the host itself on an exact hit against the known-domain index, otherwise
every known domain the host ends in at a `.` boundary. -/
def nidvMatches (fqdns : List String) (known_domains : List String) : List String :=
  fqdns.foldl
    (fun ms fqdn =>
      let h := pyStripDots (extract_base_from_fqdn fqdn)
      if h = "" then ms
      else if h ∈ known_domains then addNoDup ms h
      else known_domains.foldl
        (fun m dom => if pyEndsWith h ("." ++ dom) then addNoDup m dom else m)
        ms)
    []

/-- `match_nidv_company`: `";".join(sorted(matches))`. -/
def match_nidv_company (fqdns : List String) (known_domains : List String) : String :=
  joinStr ";" (pySorted strLeb (nidvMatches fqdns known_domains))

/-- `_under` from `1a_modat_host_domain_to_ip.py`: strict suffix match of a
host under a base domain. -/
def underDomain (h base : String) : Bool :=
  let h' := pyStripDots (pyLower h)
  let base' := pyStripDots (pyLower base)
  h' = base' || pyEndsWith h' ("." ++ base')

/-! ### Completion index (`load_completed_safe_names`, 1a) -/

/-- Does a filename match the glob `modat_host_*_*.json`? -/
def matchesHostGlob (name : String) : Bool :=
  pyStartsWith name "modat_host_" && pyEndsWith name ".json"
    && decide (name.data.length ≥ "modat_host_".data.length + ".json".data.length + 1)
    && ((name.data.drop "modat_host_".data.length).take
          (name.data.length - "modat_host_".data.length - ".json".data.length)).contains '_'

/-- `Path.stem` of a `*.json` filename: drop the `.json` extension. -/
def jsonStem (name : String) : String :=
  String.mk (name.data.take (name.data.length - ".json".data.length))

/-- The safe name recorded for one matching filename, if the stem has at
least four `_`-separated parts: `"_".join(parts[2:-1]).lower()`. -/
def safeNameOfFilename (name : String) : Option String :=
  let parts := splitChar '_' (jsonStem name).data
  if parts.length ≥ 4 then
    some (pyLower (String.mk (joinChar '_' ((parts.drop 2).dropLast))))
  else none

/-- `load_completed_safe_names`: scan the output directory (given as a
list of filenames), ignoring entries that do not match the glob or do not
have enough parts. -/
def load_completed_safe_names (files : List String) : List String :=
  files.foldl
    (fun completed name =>
      if matchesHostGlob name then
        match safeNameOfFilename name with
        | some safe => addNoDup completed safe
        | none => completed
      else completed)
    []

/-- `safe_name` as derived in the 1a main loop:
`company.lower().replace(" ", "_").replace("/", "_")`. -/
def safeNameOfCompany (company : String) : String :=
  pyReplaceChar (pyReplaceChar (pyLower company) ' ' '_') '/' '_'

/-- The companies for which the 1a main loop issues HTTP requests: strip,
skip blanks, and skip safe names present in the completion index. -/
def companiesFetched (completed : List String) (companies : List String) : List String :=
  companies.filter (fun c =>
    let c' := pyStrip c
    c' ≠ "" && safeNameOfCompany c' ∉ completed)

/-! ### Completion index (`parse_ip_from_filename` and the resume
overview, `2_modat_service_api.py`) -/

/-- `s.replace(".json", "")`: remove every occurrence of `.json`,
scanning left to right. -/
def stripJsonAll : List Char → List Char
  | '.' :: 'j' :: 's' :: 'o' :: 'n' :: rest => stripJsonAll rest
  | c :: r => c :: stripJsonAll r
  | [] => []

/-- `core.rsplit("_", 1)`: split at the last underscore, if any. -/
def rsplitUnderscore (l : List Char) : Option (List Char × List Char) :=
  match splitChar '_' l with
  | [] => none
  | [_] => none
  | h :: t =>
    some (joinChar '_' ((h :: t).dropLast), (h :: t).getLast (by simp))

/-- `parse_ip_from_filename`: recover `(ip, date)` from
`modat_service_<ip>_<YYYYMMDD>.json`, `none` on malformed names. -/
def parse_ip_from_filename (filename : String) : Option (String × String) :=
  if pyStartsWith (pyLower filename) "modat_service_" then
    let core := filename.data.drop "modat_service_".data.length
    match rsplitUnderscore core with
    | none => none
    | some (ip, date) =>
      some (pyStrip (String.mk ip), pyStrip (String.mk (stripJsonAll date)))
  else none

/-- The per-IP date index built from the output directory listing; only
names yielding truthy ip and date are indexed. -/
def ipFileIndex (files : List String) : List (String × List String) :=
  files.foldl
    (fun idx name =>
      match parse_ip_from_filename name with
      | some (ip, date) =>
        if ip ≠ "" ∧ date ≠ "" then
          dictSet idx ip ((List.lookup ip idx).getD [] ++ [date])
        else idx
      | none => idx)
    []

/-- Dates recorded for one IP (`index.get(ip, [])`). -/
def datesFor (files : List String) (ip : String) : List String :=
  (List.lookup ip (ipFileIndex files)).getD []

/-- The classification of the 2_modat_service_api resume overview and the
resulting scan list: IPs with no files, then (on explicit rescan) IPs with
only stale files. -/
def ipsToScan (files : List String) (today : String) (ips : List String)
    (rescan_old : Bool) : List String :=
  let ips_no_files := ips.filter (fun ip => datesFor files ip = [])
  let ips_old := ips.filter (fun ip =>
    datesFor files ip ≠ [] ∧ today ∉ datesFor files ip)
  ips_no_files ++ (if rescan_old then ips_old else [])

/-! ### Checkpoint saving as filesystem micro-steps
(`save_tmp_state`, `6_modat_data_validation.py`;
`write_jsonl_atomic`, `4_retrieve_cve_info.py`)

A save is a sequence of atomic filesystem steps; an interruption point is
a prefix of that sequence.  A plain `write_text` truncates the target and
then appends the payload piecewise, so mid-write states expose a partial
file; a rename is a single atomic step. -/

/-- One atomic filesystem action. -/
inductive FsStep : Type
  | truncate (path : String)
  | append (path : String) (chunk : Char)
  | rename (src dst : String)
deriving DecidableEq

/-- The filesystem: an insertion-ordered map from path to file content. -/
abbrev Fs : Type := List (String × String)

/-- Apply one step. -/
def applyStep (fs : Fs) : FsStep → Fs
  | .truncate p => dictSet fs p ""
  | .append p c => dictSet fs p ((List.lookup p fs).getD "" ++ String.mk [c])
  | .rename s d =>
    match List.lookup s fs with
    | none => fs
    | some v => dictRemove (dictSet fs d v) s

/-- Run a step sequence. -/
def runSteps (fs : Fs) (steps : List FsStep) : Fs := steps.foldl applyStep fs

/-- `path.write_text(content)`: truncate, then append character by
character (an interruption may land between any two characters). -/
def writeTextSteps (path : String) (content : String) : List FsStep :=
  FsStep.truncate path :: content.data.map (FsStep.append path)

/-- The checkpoint path written by `save_tmp_state` (`TMP_OUT`). -/
def TMP_OUT : String := "./staging/3_prepare_analyses/.6_tmp_modat_data_validation.json"

/-- `save_tmp_state`: a single non-atomic `write_text` straight onto the
checkpoint path. -/
def save_tmp_state_steps (serializedState : String) : List FsStep :=
  writeTextSteps TMP_OUT serializedState

/-- `write_jsonl_atomic`: write the serialized records to `<path>.tmp`,
then atomically rename the temporary file over `path`. -/
def write_jsonl_atomic_steps (path : String) (serialized : String) : List FsStep :=
  writeTextSteps (path ++ ".tmp") serialized ++ [FsStep.rename (path ++ ".tmp") path]

/-- Crash atomicity of a save relative to a checkpoint path: at every
interruption point the persisted file is the complete previous content or
the complete new one. -/
def CrashAtomic (steps : List FsStep) (path : String) (newContent : String) : Prop :=
  ∀ (fs : Fs) (k : Nat),
    List.lookup path (runSteps fs (steps.take k)) = List.lookup path fs ∨
    List.lookup path (runSteps fs (steps.take k)) = some newContent

/-! ### Retry/backoff fetchers
(`post_page`/`fetch_page` in 6/2/1a, `fetch_nvd_cve` in 4) -/

/-- What the HTTP layer does on one attempt: a status plus an optionally
decodable JSON body, or a transport-level error (`requests` exception). -/
inductive HttpEvent (β : Type u) : Type u
  | resp (status : Nat) (body : Option β)
  | netErr

/-- Outcome of a fetcher: a decoded body, a `None` failure result, or an
uncaught exception propagating out of the function. -/
inductive FetchOutcome (β : Type u) : Type u
  | ok (body : β)
  | fail
  | exn
deriving DecidableEq

/-- The retry loop of `post_page`/`fetch_page`: `attempt` is the current
1-based attempt number, `remaining` the attempts left.  Only HTTP 429 is
retried, sleeping `waitBase * attempt`; any other non-200 status fails
immediately; a transport error is not caught and aborts the whole loop.
Returns the outcome and the list of sleeps performed. -/
def fetch_page_go (api : Nat → HttpEvent β) (waitBase : Nat) :
    Nat → Nat → FetchOutcome β × List Nat
  | _, 0 => (.fail, [])
  | attempt, remaining + 1 =>
    match api attempt with
    | .netErr => (.exn, [])
    | .resp status body =>
      if status = 200 then
        match body with
        | some b => (.ok b, [])
        | none => (.fail, [])
      else if status = 429 then
        let rest := fetch_page_go api waitBase (attempt + 1) remaining
        (rest.1, waitBase * attempt :: rest.2)
      else (.fail, [])

/-- `fetch_page`/`post_page` with `MAX_RETRIES = 3`; `waitBase` is 5 in
1a, 3 in 2 and 4 in 6. -/
def fetch_page (api : Nat → HttpEvent β) (waitBase : Nat) : FetchOutcome β × List Nat :=
  fetch_page_go api waitBase 1 3

/-- The retry loop of `fetch_nvd_cve`: both HTTP 429 and transport errors
are retried, sleeping the current `delay` and multiplying it by
`backoff_multiplier` each time; other non-200 statuses fail immediately. -/
def fetch_nvd_go (api : Nat → HttpEvent β) (mult : ℚ) :
    Nat → Nat → ℚ → FetchOutcome β × List ℚ
  | _, 0, _ => (.fail, [])
  | attempt, remaining + 1, delay =>
    match api attempt with
    | .netErr =>
      let rest := fetch_nvd_go api mult (attempt + 1) remaining (delay * mult)
      (rest.1, delay :: rest.2)
    | .resp status body =>
      if status = 200 then
        match body with
        | some b => (.ok b, [])
        | none => (.fail, [])
      else if status = 429 then
        let rest := fetch_nvd_go api mult (attempt + 1) remaining (delay * mult)
        (rest.1, delay :: rest.2)
      else (.fail, [])

/-- `fetch_nvd_cve` with its configured base delay, backoff multiplier and
retry limit. -/
def fetch_nvd_cve (api : Nat → HttpEvent β) (request_delay_sec mult : ℚ)
    (retry_limit : Nat) : FetchOutcome β × List ℚ :=
  fetch_nvd_go api mult 1 retry_limit request_delay_sec

/-! ### CVE record store: merge and refresh buckets
(`4_retrieve_cve_info.py`, `main`) -/

/-- The fetch loop of `4_retrieve_cve_info.py` `main`: start from the
loaded JSONL records, fetch each selected CVE, and on success overwrite
the whole record for that key; failures leave the store untouched. -/
def mergeFetch {ρ : Type u} (existing : List (String × ρ))
    (fetched : String → Option ρ) (to_fetch : List String) : List (String × ρ) :=
  to_fetch.foldl
    (fun records cve =>
      match fetched cve with
      | none => records
      | some record => dictSet records cve record)
    existing

/-- The slice of a stored CVE record that the freshness/completeness scan
reads: the parsed `fetched_at` timestamp (seconds), the `nvd_metrics` dict
(family name ↦ length of the metric list) when it is a dict, and the
metrics recovered from the embedded NVD payload otherwise. -/
structure CveRec : Type where
  fetched_at : Option Int
  nvd_metrics : Option (List (String × Nat))
  fallback_metrics : List (String × Nat)
deriving DecidableEq

/-- `nvd_has_any_cvss_metric`: some known CVSS family is present with a
non-empty list. -/
def nvd_has_any_cvss_metric (rec : CveRec) : Bool :=
  let metrics := match rec.nvd_metrics with
    | some m => m
    | none => rec.fallback_metrics
  ["cvssMetricV2", "cvssMetricV30", "cvssMetricV31", "cvssMetricV40"].any
    (fun k => match List.lookup k metrics with
      | some n => decide (0 < n)
      | none => false)

/-- Seconds in a week and in the 30-day month the script uses. -/
def weekSeconds : Int := 7 * 24 * 60 * 60
def monthSeconds : Int := 30 * 24 * 60 * 60

/-- Records whose `fetched_at` parses and is older than one week. -/
def older_than_week (now : Int) (existing : List (String × CveRec)) : List String :=
  (existing.filter (fun kv =>
    match kv.2.fetched_at with
    | some ts => decide (ts < now - weekSeconds)
    | none => false)).map Prod.fst

/-- Records whose `fetched_at` parses and is older than one month. -/
def older_than_month (now : Int) (existing : List (String × CveRec)) : List String :=
  (existing.filter (fun kv =>
    match kv.2.fetched_at with
    | some ts => decide (ts < now - monthSeconds)
    | none => false)).map Prod.fst

/-- Records with missing or empty CVSS metrics. -/
def missing_cvss (existing : List (String × CveRec)) : List String :=
  (existing.filter (fun kv => ¬ nvd_has_any_cvss_metric kv.2)).map Prod.fst

/-- The rescan set: the union of the independently selectable buckets. -/
def rescanSet (now : Int) (existing : List (String × CveRec))
    (rescan_week rescan_month rescan_missing : Bool) : List String :=
  (if rescan_week then older_than_week now existing else []) ++
    (if rescan_month then older_than_month now existing else []) ++
      (if rescan_missing then missing_cvss existing else [])

/-! ### JSON values and `flatten` (`3_process_json_to_csv.py`) -/

/-- JSON values as the scripts see them after `json.loads` (numbers are
modelled as integers; the flattening logic never computes with them). -/
inductive Json : Type
  | null
  | bool (b : Bool)
  | num (n : Int)
  | str (s : String)
  | arr (elems : List Json)
  | obj (entries : List (String × Json))

/-- Decimal digit character. -/
def digitChar (n : Nat) : Char := Char.ofNat (48 + n)

/-- Decimal digits of a natural number, fuelled so that the definition is
structural and evaluates by kernel reduction; `fuel > n` suffices. -/
def natCharsCore : Nat → Nat → List Char
  | 0, _ => []
  | fuel + 1, n =>
    if n < 10 then [digitChar n]
    else natCharsCore fuel (n / 10) ++ [digitChar (n % 10)]

/-- `str(n)` for a natural number. -/
def natChars (n : Nat) : List Char := natCharsCore (n + 1) n

/-- `str(i)` for an integer. -/
def intChars (i : Int) : List Char :=
  if i < 0 then '-' :: natChars i.natAbs else natChars i.natAbs

/-- `str(len(...))` as a string. -/
def natStr (n : Nat) : String := String.mk (natChars n)

/-- Python `str()` on the scalar JSON values that can appear inside a
list of primitives (`None` is filtered out before `str` is applied, and
lists/dicts are excluded by the scalar test; the catch-all is unreachable
from `flatten`). -/
def pyStrScalar : Json → String
  | .null => "None"
  | .bool b => if b then "True" else "False"
  | .num n => String.mk (intChars n)
  | .str s => s
  | _ => ""

/-- `isinstance(x, (dict, list))` is false. -/
def jsonIsScalar : Json → Bool
  | .arr _ => false
  | .obj _ => false
  | _ => true

/-- Is this `None`? -/
def jsonIsNull : Json → Bool
  | .null => true
  | _ => false

/-- One pass of the `clean_for_csv` replacements: `\r\n`, `\n`, `\r` and
`\t` all become single spaces. -/
def normNewlines : List Char → List Char
  | '\r' :: '\n' :: r => ' ' :: normNewlines r
  | '\n' :: r => ' ' :: normNewlines r
  | '\r' :: r => ' ' :: normNewlines r
  | '\t' :: r => ' ' :: normNewlines r
  | c :: r => c :: normNewlines r
  | [] => []

/-- Whitespace predicate used by `str.strip()` here. -/
def isWsChar (c : Char) : Bool := c = ' ' || c = '\t' || c = '\n' || c = '\r'

/-- The string path of `clean_for_csv`: normalise newlines/tabs, strip
whitespace, then strip double and single quotes from the ends. -/
def cleanChars (l : List Char) : List Char :=
  stripChars (fun c => c = '\'')
    (stripChars (fun c => c = '"') (stripChars isWsChar (normNewlines l)))

/-- Literal brace characters (kept out of string literals). -/
def lbrace : Char := Char.ofNat 123
def rbrace : Char := Char.ofNat 125

/-- Lowercase hex digit. -/
def hexDigitChar (n : Nat) : Char :=
  if n < 10 then Char.ofNat (48 + n) else Char.ofNat (87 + n)

/-- Four-digit hex escape payload. -/
def hex4 (n : Nat) : List Char :=
  [hexDigitChar (n / 4096 % 16), hexDigitChar (n / 256 % 16),
    hexDigitChar (n / 16 % 16), hexDigitChar (n % 16)]

/-- `json.dumps` escaping of one character (`ensure_ascii=False`, so
characters at or above U+0020 other than `"` and `\` stay literal). -/
def jsonEscapeChar (c : Char) : List Char :=
  if c = '"' then ['\\', '"']
  else if c = '\\' then ['\\', '\\']
  else if c = '\n' then ['\\', 'n']
  else if c = '\t' then ['\\', 't']
  else if c = '\r' then ['\\', 'r']
  else if c.toNat = 8 then ['\\', 'b']
  else if c.toNat = 12 then ['\\', 'f']
  else if c.toNat < 32 then '\\' :: 'u' :: hex4 c.toNat
  else [c]

/-- A serialized JSON string literal. -/
def jsonQuote (s : String) : List Char :=
  '"' :: (s.data.map jsonEscapeChar).flatten ++ ['"']

/-- Join serialized chunks with a separator. -/
def joinChunks (sep : List Char) : List (List Char) → List Char
  | [] => []
  | [p] => p
  | p :: q :: r => p ++ sep ++ joinChunks sep (q :: r)

mutual

/-- `json.dumps(obj, ensure_ascii=False, sort_keys=True)` with the default
`(", ", ": ")` separators, as `dict_to_clean_string` calls it: object
entries are serialized and then ordered by key. -/
def pyDumps : Json → List Char
  | .null => "null".data
  | .bool b => if b then "true".data else "false".data
  | .num i => intChars i
  | .str s => jsonQuote s
  | .arr xs => '[' :: joinChunks ", ".data (pyDumpsArr xs) ++ [']']
  | .obj kvs =>
    lbrace :: joinChunks ", ".data
      ((pySorted (fun a b => strLeb a.1 b.1) (pyDumpsEntries kvs)).map Prod.snd)
      ++ [rbrace]

/-- Serialized array elements, in order. -/
def pyDumpsArr : List Json → List (List Char)
  | [] => []
  | x :: xs => pyDumps x :: pyDumpsArr xs

/-- Object entries as `(key, serialized "key": value)` pairs. -/
def pyDumpsEntries : List (String × Json) → List (String × List Char)
  | [] => []
  | (k, v) :: rest =>
    (k, jsonQuote k ++ ':' :: ' ' :: pyDumps v) :: pyDumpsEntries rest

end

/-- `clean_for_csv`.  The `arr`/`obj` fall-through (Python `str(value)`)
is modelled via the JSON serialization; `flatten` never reaches it, since
it only hands scalars or already-joined strings to `clean_for_csv`. -/
def clean_for_csv : Json → String
  | .null => ""
  | .bool b => if b then "true" else "false"
  | .num n => String.mk (intChars n)
  | .str s => String.mk (cleanChars s.data)
  | .arr xs => String.mk (cleanChars (pyDumps (.arr xs)))
  | .obj kvs => String.mk (cleanChars (pyDumps (.obj kvs)))

/-- `dict_to_clean_string`: canonical JSON serialization (sorted keys)
followed by the CSV cleaning. -/
def dict_to_clean_string (j : Json) : String :=
  String.mk (cleanChars (pyDumps j))

/-- `f"{parent_key}.{k}" if parent_key else str(k)`. -/
def joinKey (parent_key k : String) : String :=
  if parent_key = "" then k else parent_key ++ "." ++ k

/-- The raw-certificate key elided by `flatten`. -/
def rawCertKey : String := "service.tls.raw"

mutual

/-- `flatten`: nested objects join keys with `.` (skipping
`service.tls.raw`), lists of scalars become one `;`-joined cell plus a
`_count` key counting the non-`None` elements, lists containing nested
structure are serialized canonically, scalars are cleaned. -/
def flatten : Json → String → List (String × String)
  | .obj kvs, parent_key => flattenObj kvs parent_key []
  | .arr xs, parent_key =>
    let base : List (String × String) :=
      if parent_key ≠ "" then [(parent_key ++ "_count", natStr xs.length)] else []
    if xs.all jsonIsScalar then
      let vals := (xs.filter (fun x => !jsonIsNull x)).map pyStrScalar
      dictSet (dictSet base parent_key (String.mk (cleanChars (joinStr ";" vals).data)))
        (parent_key ++ "_count") (natStr vals.length)
    else
      dictSet base parent_key (dict_to_clean_string (.arr xs))
  | j, parent_key => [(parent_key, clean_for_csv j)]

/-- The object loop of `flatten`: `items.update(flatten(v, new_key))` for
each entry, skipping the raw-certificate key. -/
def flattenObj : List (String × Json) → String → List (String × String) →
    List (String × String)
  | [], _, items => items
  | (k, v) :: rest, parent_key, items =>
    let new_key := joinKey parent_key k
    if new_key = rawCertKey then flattenObj rest parent_key items
    else flattenObj rest parent_key (dictMerge items (flatten v new_key))

end

/-! ### The resumable harvest (`6_modat_data_validation.py`) -/

/-- Boolean `≤` on naturals for Python `sorted`. -/
def natLeb (a b : Nat) : Bool := decide (a ≤ b)

/-- `sorted` on a list of page numbers. -/
def sortedNat (l : List Nat) : List Nat := pySorted natLeb l

/-- Query constants of the script. -/
def COUNTRY : String := "NL"
def TAGS : List String := ["access management", "alarm", "building automation", "camera"]
def EXCLUDE_TAG : String := "honeypot"

/-- `build_query`. -/
def build_query : String :=
  "country=\"" ++ COUNTRY ++ "\" AND ("
    ++ joinStr " OR " (TAGS.map (fun t => "tag=\"" ++ t ++ "\""))
    ++ ") AND tag!=\"" ++ EXCLUDE_TAG ++ "\""

/-- The parts of a decoded page response that the harvest reads: the
`total_pages`, `page` and `results` keys (each possibly absent).  Records
are an opaque payload type `ρ`. -/
structure ApiResp (ρ : Type u) : Type u where
  total_pages : Option Nat
  page : Option (List ρ)
  results : Option (List ρ)

/-- `data.get("page", []) or data.get("results", []) or []`. -/
def extract_results {ρ : Type u} (r : ApiResp ρ) : List ρ :=
  match r.page with
  | some (x :: xs) => x :: xs
  | _ =>
    match r.results with
    | some (y :: ys) => y :: ys
    | _ => []

/-- `int(o or d)` on an optional page count (absent and `0` both fall back
to the default). -/
def orNat (o : Option Nat) (d : Nat) : Nat :=
  match o with
  | none => d
  | some 0 => d
  | some (n + 1) => n + 1

/-- The checkpoint state (`tmp` JSON).  The `meta` dict is identified by
its one varying component, the `started_at` timestamp. -/
structure HState (ρ : Type u) : Type u where
  meta : String
  query : String
  pages_done : List Nat
  total_pages : Option Nat
  results_by_page : List (Nat × List ρ)

/-- The fresh state installed when no checkpoint exists or the query
changed. -/
def initState (ρ : Type u) (query startedAt : String) : HState ρ :=
  ⟨startedAt, query, [], none, []⟩

/-- The consolidated final output (`consolidate_to_final`). -/
structure FinalOut (ρ : Type u) : Type u where
  meta : String
  query : String
  total_pages : Option Nat
  pages_done : List Nat
  results_count : Nat
  results : List ρ
  exported_at : String

/-- `consolidate_to_final`: concatenate the stored page results in
ascending page order. -/
def consolidate_to_final {ρ : Type u} (st : HState ρ) (exportedAt : String) :
    FinalOut ρ :=
  let pages := sortedNat (st.results_by_page.map Prod.fst).dedup
  let combined :=
    (pages.map (fun p => (List.lookup p st.results_by_page).getD [])).flatten
  ⟨st.meta, st.query, st.total_pages, pages, combined.length, combined, exportedAt⟩

/-- The mutable loop variables of `main`: current state, the
`pages_done` set, the `total_pages` variable, the pages requested so far
and the checkpoints saved so far. -/
structure LoopState (ρ : Type u) : Type u where
  st : HState ρ
  pd : List Nat
  tp : Nat
  req : List Nat
  saved : List (HState ρ)

/-- The page loop of `main` (lines 180–203): skip pages already done;
on a fetch failure return immediately with the checkpoint preserved;
otherwise update `total_pages`, store the page results, extend
`pages_done` and save the checkpoint. -/
def harvestLoop {ρ : Type u} (api : Nat → Option (ApiResp ρ)) :
    List Nat → LoopState ρ → Bool × LoopState ρ
  | [], ls => (true, ls)
  | page :: rest, ls =>
    if page ∈ ls.pd then harvestLoop api rest ls
    else
      match api page with
      | none => (false, { ls with req := ls.req ++ [page] })
      | some data =>
        let tp' := orNat data.total_pages ls.tp
        let pd' := addNoDup ls.pd page
        let st' : HState ρ :=
          { ls.st with
            total_pages := some tp',
            results_by_page := dictSet ls.st.results_by_page page (extract_results data),
            pages_done := sortedNat pd' }
        harvestLoop api rest
          ⟨st', pd', tp', ls.req ++ [page], ls.saved ++ [st']⟩

/-- Result of one run of `main`: success flag, last in-memory state, the
pages requested over HTTP in order, the checkpoints saved in order, and
the consolidated output when the run completed. -/
structure RunResult (ρ : Type u) : Type u where
  ok : Bool
  state : HState ρ
  requested : List Nat
  saved : List (HState ρ)
  final : Option (FinalOut ρ)

/-- `main` from the point the checkpoint is loaded (lines 132–206):
initialise or validate the state against the current query, fetch page 1
if `total_pages` is unknown, then walk the remaining pages and
consolidate. -/
def main_run {ρ : Type u} (api : Nat → Option (ApiResp ρ))
    (loaded : Option (HState ρ)) (startedAt exportedAt : String) : RunResult ρ :=
  let query := build_query
  let (st0, saved0) :=
    match loaded with
    | none => ((initState ρ query startedAt), [initState ρ query startedAt])
    | some s =>
      if s.query = query then (s, [])
      else ((initState ρ query startedAt), [initState ρ query startedAt])
  let pd0 := st0.pages_done.foldl addNoDup []
  let afterFirst : Option (LoopState ρ) :=
    match st0.total_pages with
    | some tp0 => some ⟨st0, pd0, tp0, [], saved0⟩
    | none =>
      if 1 ∈ pd0 then some ⟨st0, pd0, orNat st0.total_pages 1, [], saved0⟩
      else
        match api 1 with
        | none => none
        | some first =>
          let tp := orNat first.total_pages 1
          let pd1 := addNoDup pd0 1
          let st1 : HState ρ :=
            { st0 with
              total_pages := some tp,
              results_by_page := dictSet st0.results_by_page 1 (extract_results first),
              pages_done := sortedNat pd1 }
          some ⟨st1, pd1, tp, [1], saved0 ++ [st1]⟩
  match afterFirst with
  | none => ⟨false, st0, [1], saved0, none⟩
  | some ls0 =>
    let (ok, ls) := harvestLoop api (List.range' 1 ls0.tp) ls0
    if ok then
      ⟨true, ls.st, ls.req, ls.saved, some (consolidate_to_final ls.st exportedAt)⟩
    else
      ⟨false, ls.st, ls.req, ls.saved, none⟩

/-- A concrete API for the harvest model whose reported `total_pages`
shrinks between pages: page 1 reports 2 total pages, page 2 reports 1.
The loop of `main` overwrites `total_pages` from every response
(line 191), so it trusts this shrinking value. -/
def c4api : Nat → Option (ApiResp Nat) :=
  fun p =>
    if p = 1 then some ⟨some 2, some [10], none⟩
    else if p = 2 then some ⟨some 1, some [20], none⟩
    else none

/-- A concrete API for the harvest model that reports the same
`total_pages = 2` on every page. -/
def c4apiconst : Nat → Option (ApiResp Nat) :=
  fun p =>
    if p ≤ 2 then some ⟨some 2, some [p], none⟩ else none

/-! ### Dataset fingerprint (`dataset_fingerprint`, `3_process_json_to_csv.py`)

The fingerprint is `sha256` over the UTF-8 bytes of
`json.dumps(items, separators=(",", ":"), sort_keys=True)` where `items`
lists `(name, size, mtime)` per matched file in name-sorted order.  The
serialization, the UTF-8 encoding and SHA-256 itself are embedded
executably. -/

/-- Stat data of one matched file. -/
structure FileMeta : Type where
  name : String
  size : Nat
  mtime : Int
deriving DecidableEq

/-- `json.dumps` character escaping with `ensure_ascii=True` (the default,
used for the manifest blob): non-ASCII characters become `\uXXXX`
escapes, astral characters a surrogate pair. -/
def jsonEscapeCharA (c : Char) : List Char :=
  if c = '"' then ['\\', '"']
  else if c = '\\' then ['\\', '\\']
  else if c = '\n' then ['\\', 'n']
  else if c = '\t' then ['\\', 't']
  else if c = '\r' then ['\\', 'r']
  else if c.toNat = 8 then ['\\', 'b']
  else if c.toNat = 12 then ['\\', 'f']
  else if c.toNat < 32 then '\\' :: 'u' :: hex4 c.toNat
  else if c.toNat < 127 then [c]
  else if c.toNat < 65536 then '\\' :: 'u' :: hex4 c.toNat
  else
    '\\' :: 'u' :: hex4 (55296 + (c.toNat - 65536) / 1024)
      ++ '\\' :: 'u' :: hex4 (56320 + (c.toNat - 65536) % 1024)

/-- ASCII-mode JSON string literal. -/
def jsonQuoteA (s : String) : List Char :=
  '"' :: (s.data.map jsonEscapeCharA).flatten ++ ['"']

/-- One `{"mtime":…,"name":…,"size":…}` item (keys in sorted order,
compact separators). -/
def encItem (m : FileMeta) : List Char :=
  lbrace :: "\"mtime\":".data ++ intChars m.mtime
    ++ ",\"name\":".data ++ jsonQuoteA m.name
    ++ ",\"size\":".data ++ natChars m.size ++ [rbrace]

/-- Name-sorted file list (`sorted(service_dir.glob(...))`). -/
def sortFilesByName (files : List FileMeta) : List FileMeta :=
  pySorted (fun a b => strLeb a.name b.name) files

/-- The serialized manifest item list. -/
def blobChars (items : List FileMeta) : List Char :=
  '[' :: joinChunks [','] (items.map encItem) ++ [']']

/-- UTF-8 encoding of one character. -/
def utf8Char (c : Char) : List Nat :=
  let n := c.toNat
  if n < 128 then [n]
  else if n < 2048 then [192 + n / 64, 128 + n % 64]
  else if n < 65536 then [224 + n / 4096, 128 + n / 64 % 64, 128 + n % 64]
  else [240 + n / 262144, 128 + n / 4096 % 64, 128 + n / 64 % 64, 128 + n % 64]

/-- UTF-8 encoding of a character list (`.encode("utf-8")`). -/
def utf8Bytes (l : List Char) : List Nat := (l.map utf8Char).flatten

/-! #### SHA-256 (FIPS 180-4) over byte lists, words as `Nat % 2^32` -/

def M32 : Nat := 4294967296

def add32 (a b : Nat) : Nat := (a + b) % M32

def rotr32 (n a : Nat) : Nat := a / 2 ^ n + a % 2 ^ n * 2 ^ (32 - n)

def shr32 (n a : Nat) : Nat := a / 2 ^ n

def not32 (a : Nat) : Nat := Nat.xor a 4294967295

def smallSigma0 (x : Nat) : Nat := Nat.xor (rotr32 7 x) (Nat.xor (rotr32 18 x) (shr32 3 x))
def smallSigma1 (x : Nat) : Nat := Nat.xor (rotr32 17 x) (Nat.xor (rotr32 19 x) (shr32 10 x))
def bigSigma0 (x : Nat) : Nat := Nat.xor (rotr32 2 x) (Nat.xor (rotr32 13 x) (rotr32 22 x))
def bigSigma1 (x : Nat) : Nat := Nat.xor (rotr32 6 x) (Nat.xor (rotr32 11 x) (rotr32 25 x))
def chFun (x y z : Nat) : Nat := Nat.xor (Nat.land x y) (Nat.land (not32 x) z)
def majFun (x y z : Nat) : Nat := Nat.xor (Nat.land x y) (Nat.xor (Nat.land x z) (Nat.land y z))

/-- The SHA-256 round constants. -/
def K256 : List Nat :=
  [1116352408, 1899447441, 3049323471, 3921009573, 961987163, 1508970993,
   2453635748, 2870763221, 3624381080, 310598401, 607225278, 1426881987,
   1925078388, 2162078206, 2614888103, 3248222580, 3835390401, 4022224774,
   264347078, 604807628, 770255983, 1249150122, 1555081692, 1996064986,
   2554220882, 2821834349, 2952996808, 3210313671, 3336571891, 3584528711,
   113926993, 338241895, 666307205, 773529912, 1294757372, 1396182291,
   1695183700, 1986661051, 2177026350, 2456956037, 2730485921, 2820302411,
   3259730800, 3345764771, 3516065817, 3600352804, 4094571909, 275423344,
   430227734, 506948616, 659060556, 883997877, 958139571, 1322822218,
   1537002063, 1747873779, 1955562222, 2024104815, 2227730452, 2361852424,
   2428436474, 2756734187, 3204031479, 3329325298]

/-- The SHA-256 initial hash value. -/
def H256 : List Nat :=
  [1779033703, 3144134277, 1013904242, 2773480762,
   1359893119, 2600822924, 528734635, 1541459225]

/-- Big-endian 64-bit length field. -/
def be64 (n : Nat) : List Nat :=
  [n / 2 ^ 56 % 256, n / 2 ^ 48 % 256, n / 2 ^ 40 % 256, n / 2 ^ 32 % 256,
   n / 2 ^ 24 % 256, n / 2 ^ 16 % 256, n / 2 ^ 8 % 256, n % 256]

/-- SHA-256 padding: `0x80`, zeros to 56 mod 64, then the bit length. -/
def padMsg (msg : List Nat) : List Nat :=
  msg ++ 128 :: List.replicate ((119 - msg.length % 64) % 64) 0
    ++ be64 (8 * msg.length)

/-- Big-endian 32-bit words from bytes. -/
def bytesToWords : List Nat → List Nat
  | a :: b :: c :: d :: rest => (((a * 256 + b) * 256 + c) * 256 + d) :: bytesToWords rest
  | _ => []

/-- 16-word blocks. -/
def wordsToBlocks : List Nat → List (List Nat)
  | w0 :: w1 :: w2 :: w3 :: w4 :: w5 :: w6 :: w7 :: w8 :: w9 :: w10 :: w11
      :: w12 :: w13 :: w14 :: w15 :: rest =>
    [w0, w1, w2, w3, w4, w5, w6, w7, w8, w9, w10, w11, w12, w13, w14, w15]
      :: wordsToBlocks rest
  | _ => []

/-- Message-schedule extension; the accumulator holds the schedule in
reverse (most recent word first). -/
def schedExtend : Nat → List Nat → List Nat
  | 0, acc => acc
  | n + 1, acc =>
    let w := add32 (add32 (smallSigma1 (acc.getD 1 0)) (acc.getD 6 0))
      (add32 (smallSigma0 (acc.getD 14 0)) (acc.getD 15 0))
    schedExtend n (w :: acc)

/-- The 64-word message schedule of a block. -/
def schedule (block : List Nat) : List Nat :=
  (schedExtend 48 block.reverse).reverse

/-- One compression round on the eight working variables. -/
def compressStep (state : List Nat) (k w : Nat) : List Nat :=
  match state with
  | [a, b, c, d, e, f, g, h] =>
    let t1 := add32 h (add32 (bigSigma1 e) (add32 (chFun e f g) (add32 k w)))
    let t2 := add32 (bigSigma0 a) (majFun a b c)
    [add32 t1 t2, a, b, c, add32 d t1, e, f, g]
  | s => s

/-- Compress one block into the hash value. -/
def compressBlock (hv : List Nat) (block : List Nat) : List Nat :=
  let final := (K256.zip (schedule block)).foldl
    (fun s kw => compressStep s kw.1 kw.2) hv
  List.zipWith add32 hv final

/-- SHA-256 digest as eight 32-bit words. -/
def sha256Words (msg : List Nat) : List Nat :=
  (wordsToBlocks (bytesToWords (padMsg msg))).foldl compressBlock H256

/-- Eight lowercase hex digits of one word. -/
def hexWord (w : Nat) : List Char :=
  [hexDigitChar (w / 16 ^ 7 % 16), hexDigitChar (w / 16 ^ 6 % 16),
   hexDigitChar (w / 16 ^ 5 % 16), hexDigitChar (w / 16 ^ 4 % 16),
   hexDigitChar (w / 16 ^ 3 % 16), hexDigitChar (w / 16 ^ 2 % 16),
   hexDigitChar (w / 16 % 16), hexDigitChar (w % 16)]

/-- `hashlib.sha256(...).hexdigest()`. -/
def sha256hex (msg : List Nat) : String :=
  String.mk ((sha256Words msg).map hexWord).flatten

/-- The digest words packed into one natural number (base `2^32`
big-endian); used to bound the digest space. -/
def wordsToNat : List Nat → Nat
  | [] => 0
  | w :: rest => w % M32 * M32 ^ rest.length + wordsToNat rest

/-- The exact byte string `dataset_fingerprint` hashes. -/
def fingerprintBytes (files : List FileMeta) : List Nat :=
  utf8Bytes (blobChars (sortFilesByName files))

/-- `dataset_fingerprint(...)["sha256"]`. -/
def dataset_fingerprint (files : List FileMeta) : String :=
  sha256hex (fingerprintBytes files)

/-! #### A decoder for the manifest blob, used to prove the serialization
injective on JSON-safe file names -/

/-- Printable-ASCII names without `"` or `\`, which the JSON escaping
leaves untouched. -/
def jsonSafeName (s : String) : Bool :=
  s.data.all (fun c => 32 ≤ c.toNat && c.toNat < 127 && c ≠ '"' && c ≠ '\\')

/-- Expect a literal prefix. -/
def parseLit : List Char → List Char → Option (List Char)
  | [], s => some s
  | _, [] => none
  | c :: lr, x :: xs => if x = c then parseLit lr xs else none

def isDigitC (c : Char) : Bool := 48 ≤ c.toNat && c.toNat < 58

def digitsVal (l : List Char) : Nat := l.foldl (fun a c => a * 10 + (c.toNat - 48)) 0

/-- Parse a non-empty digit run. -/
def parseNatChars (s : List Char) : Option (Nat × List Char) :=
  match s.takeWhile isDigitC with
  | [] => none
  | ds => some (digitsVal ds, s.dropWhile isDigitC)

/-- Parse an optionally negated integer. -/
def parseIntChars : List Char → Option (Int × List Char)
  | '-' :: rest =>
    match parseNatChars rest with
    | some (n, r) => some (-(n : Int), r)
    | none => none
  | s =>
    match parseNatChars s with
    | some (n, r) => some ((n : Int), r)
    | none => none

/-- Parse a safe string up to the closing quote. -/
def parseNameChars (s : List Char) : Option (String × List Char) :=
  match s.dropWhile (fun c => c ≠ '"') with
  | '"' :: r => some (String.mk (s.takeWhile (fun c => c ≠ '"')), r)
  | _ => none

/-- Parse one serialized manifest item. -/
def parseItem (s : List Char) : Option (FileMeta × List Char) :=
  match parseLit (lbrace :: "\"mtime\":".data) s with
  | none => none
  | some s1 =>
    match parseIntChars s1 with
    | none => none
    | some (mt, s2) =>
      match parseLit (",\"name\":\"").data s2 with
      | none => none
      | some s3 =>
        match parseNameChars s3 with
        | none => none
        | some (nm, s4) =>
          match parseLit ",\"size\":".data s4 with
          | none => none
          | some (s5) =>
            match parseNatChars s5 with
            | none => none
            | some (sz, s6) =>
              match parseLit [rbrace] s6 with
              | none => none
              | some s7 => some (⟨nm, sz, mt⟩, s7)

/-- Parse a comma-separated item sequence (fuelled). -/
def parseItemsAux : Nat → List Char → Option (List FileMeta × List Char)
  | 0, _ => none
  | fuel + 1, s =>
    match parseItem s with
    | none => none
    | some (m, rest) =>
      match rest with
      | ',' :: r2 =>
        match parseItemsAux fuel r2 with
        | some (ms, r3) => some (m :: ms, r3)
        | none => none
      | _ => some ([m], rest)

/-- Decode a whole manifest blob. -/
def parseBlob (s : List Char) : Option (List FileMeta) :=
  match s with
  | '[' :: ']' :: [] => some []
  | '[' :: rest =>
    match parseItemsAux (rest.length + 1) rest with
    | some (ms, [']']) => some ms
    | _ => none
  | _ => none

/-! ## Helper lemmas -/

theorem lookup_dictSet_self [DecidableEq α] [BEq α] [LawfulBEq α]
    (l : List (α × β)) (k : α) (v : β) :
    List.lookup k (dictSet l k v) = some v := by
  induction l with
  | nil => simp [dictSet, List.lookup]
  | cons kv rest ih =>
    obtain ⟨k', v'⟩ := kv
    by_cases h : k = k'
    · subst h; simp [dictSet, List.lookup]
    · simp [dictSet, h, List.lookup, beq_false_of_ne h, ih]

theorem lookup_dictSet_ne [DecidableEq α] [BEq α] [LawfulBEq α]
    (l : List (α × β)) (k q : α) (v : β) (h : q ≠ k) :
    List.lookup q (dictSet l k v) = List.lookup q l := by
  induction l with
  | nil => simp [dictSet, List.lookup, beq_false_of_ne h]
  | cons kv rest ih =>
    obtain ⟨k', v'⟩ := kv
    by_cases hk : k = k'
    · subst hk; simp [dictSet, List.lookup, beq_false_of_ne h]
    · by_cases hq : q = k'
      · subst hq; simp [dictSet, hk, List.lookup]
      · simp [dictSet, hk, List.lookup, beq_false_of_ne hq, ih]

theorem lookup_dictRemove_ne [DecidableEq α] [BEq α] [LawfulBEq α]
    (l : List (α × β)) (k q : α) (h : q ≠ k) :
    List.lookup q (dictRemove l k) = List.lookup q l := by
  induction l with
  | nil => simp [dictRemove]
  | cons kv rest ih =>
    obtain ⟨k', v'⟩ := kv
    by_cases hk : k' = k
    · subst hk
      simpa [dictRemove, List.lookup, beq_false_of_ne h] using ih
    · by_cases hq : q = k'
      · subst hq; simp [dictRemove, hk, List.lookup]
      · simpa [dictRemove, hk, List.lookup, beq_false_of_ne hq] using ih

theorem mem_addNoDup [DecidableEq α] (l : List α) (x a : α) :
    a ∈ addNoDup l x ↔ a ∈ l ∨ a = x := by
  by_cases h : x ∈ l
  · simp only [addNoDup, if_pos h]
    constructor
    · exact Or.inl
    · rintro (ha | rfl)
      · exact ha
      · exact h
  · simp [addNoDup, if_neg h]

theorem mem_foldl_addNoDup [DecidableEq α] (l : List α) (acc : List α) (a : α) :
    a ∈ l.foldl addNoDup acc ↔ a ∈ acc ∨ a ∈ l := by
  induction l generalizing acc with
  | nil => simp
  | cons x r ih =>
    simp only [List.foldl_cons, ih, mem_addNoDup, List.mem_cons]
    tauto

theorem lookup_isSome_iff [DecidableEq α] [BEq α] [LawfulBEq α]
    (l : List (α × β)) (a : α) :
    (List.lookup a l).isSome ↔ a ∈ l.map Prod.fst := by
  induction l with
  | nil => simp [List.lookup]
  | cons kv rest ih =>
    obtain ⟨k, v⟩ := kv
    by_cases h : a = k
    · subst h; simp [List.lookup]
    · simp [List.lookup, beq_false_of_ne h, ih, h]

theorem keys_dictSet [DecidableEq α] (l : List (α × β)) (k : α) (v : β) (a : α) :
    a ∈ (dictSet l k v).map Prod.fst ↔ a ∈ l.map Prod.fst ∨ a = k := by
  induction l with
  | nil => simp [dictSet]
  | cons kv rest ih =>
    obtain ⟨k', v'⟩ := kv
    by_cases h : k = k'
    · subst h
      simp only [dictSet, if_pos trivial, reduceIte, List.map_cons, List.mem_cons]
      tauto
    · simp only [dictSet, if_neg h, List.map_cons, List.mem_cons, ih]
      tauto

theorem keys_dictSet_nodup [DecidableEq α] (l : List (α × β)) (k : α) (v : β)
    (h : (l.map Prod.fst).Nodup) : ((dictSet l k v).map Prod.fst).Nodup := by
  induction l with
  | nil => simp [dictSet]
  | cons kv rest ih =>
    obtain ⟨k', v'⟩ := kv
    simp only [List.map_cons, List.nodup_cons] at h
    by_cases hk : k = k'
    · subst hk; simpa [dictSet] using h
    · simp only [dictSet, if_neg hk, List.map_cons, List.nodup_cons]
      refine ⟨fun hc => ?_, ih h.2⟩
      rw [keys_dictSet] at hc
      rcases hc with hc | hc
      · exact h.1 hc
      · exact hk hc.symm

/-! ### Lemmas on the nidv match accumulation -/

theorem mem_suffixFold (h : String) (known ms : List String) (d : String) :
    d ∈ known.foldl
        (fun m dom => if pyEndsWith h ("." ++ dom) then addNoDup m dom else m) ms ↔
      d ∈ ms ∨ (d ∈ known ∧ pyEndsWith h ("." ++ d) = true) := by
  induction known generalizing ms with
  | nil => simp
  | cons x r ih =>
    simp only [List.foldl_cons]
    by_cases hx : pyEndsWith h ("." ++ x) = true
    · rw [if_pos hx, ih]
      constructor
      · rintro (hm | ⟨hr, hp⟩)
        · rcases (mem_addNoDup ms x d).mp hm with hm | rfl
          · exact Or.inl hm
          · exact Or.inr ⟨List.mem_cons_self _ _, hx⟩
        · exact Or.inr ⟨List.mem_cons_of_mem x hr, hp⟩
      · rintro (hm | ⟨hdm, hp⟩)
        · exact Or.inl ((mem_addNoDup ms x d).mpr (Or.inl hm))
        · rcases List.mem_cons.mp hdm with rfl | hr
          · exact Or.inl ((mem_addNoDup ms _ _).mpr (Or.inr rfl))
          · exact Or.inr ⟨hr, hp⟩
    · rw [if_neg hx, ih]
      constructor
      · rintro (hm | ⟨hr, hp⟩)
        · exact Or.inl hm
        · exact Or.inr ⟨List.mem_cons_of_mem x hr, hp⟩
      · rintro (hm | ⟨hdm, hp⟩)
        · exact Or.inl hm
        · rcases List.mem_cons.mp hdm with rfl | hr
          · exact absurd hp hx
          · exact Or.inr ⟨hr, hp⟩

/-- What one fqdn contributes to the match set. -/
def nidvHit (known : List String) (f d : String) : Prop :=
  pyStripDots (extract_base_from_fqdn f) ≠ "" ∧
    ((pyStripDots (extract_base_from_fqdn f) ∈ known ∧
        d = pyStripDots (extract_base_from_fqdn f)) ∨
      (pyStripDots (extract_base_from_fqdn f) ∉ known ∧ d ∈ known ∧
        pyEndsWith (pyStripDots (extract_base_from_fqdn f)) ("." ++ d) = true))

theorem mem_nidvFold (fqdns known ms : List String) (d : String) :
    d ∈ fqdns.foldl
        (fun ms fqdn =>
          let h := pyStripDots (extract_base_from_fqdn fqdn)
          if h = "" then ms
          else if h ∈ known then addNoDup ms h
          else known.foldl
            (fun m dom => if pyEndsWith h ("." ++ dom) then addNoDup m dom else m)
            ms) ms ↔
      d ∈ ms ∨ ∃ f ∈ fqdns, nidvHit known f d := by
  induction fqdns generalizing ms with
  | nil => simp
  | cons f r ih =>
    simp only [List.foldl_cons, ih]
    by_cases h0 : pyStripDots (extract_base_from_fqdn f) = ""
    · simp only [h0, if_pos trivial, reduceIte]
      constructor
      · rintro (hm | hr)
        · exact Or.inl hm
        · exact Or.inr (by obtain ⟨g, hg, hh⟩ := hr; exact ⟨g, List.mem_cons_of_mem f hg, hh⟩)
      · rintro (hm | ⟨g, hg, hh⟩)
        · exact Or.inl hm
        · rcases List.mem_cons.mp hg with rfl | hg'
          · exact absurd h0 hh.1
          · exact Or.inr ⟨g, hg', hh⟩
    · rw [if_neg h0]
      by_cases hin : pyStripDots (extract_base_from_fqdn f) ∈ known
      · rw [if_pos hin]
        constructor
        · rintro (hm | hr)
          · rcases (mem_addNoDup ms _ d).mp hm with hm | rfl
            · exact Or.inl hm
            · exact Or.inr ⟨f, List.mem_cons_self _ _, h0, Or.inl ⟨hin, rfl⟩⟩
          · obtain ⟨g, hg, hh⟩ := hr
            exact Or.inr ⟨g, List.mem_cons_of_mem f hg, hh⟩
        · rintro (hm | ⟨g, hg, hh⟩)
          · exact Or.inl ((mem_addNoDup ms _ d).mpr (Or.inl hm))
          · rcases List.mem_cons.mp hg with rfl | hg'
            · rcases hh.2 with ⟨_, rfl⟩ | ⟨hnin, _⟩
              · exact Or.inl ((mem_addNoDup ms _ _).mpr (Or.inr rfl))
              · exact absurd hin hnin
            · exact Or.inr ⟨g, hg', hh⟩
      · rw [if_neg hin]
        rw [mem_suffixFold]
        constructor
        · rintro ((hm | hs) | hr)
          · exact Or.inl hm
          · exact Or.inr ⟨f, List.mem_cons_self f r, h0, Or.inr ⟨hin, hs⟩⟩
          · obtain ⟨g, hg, hh⟩ := hr
            exact Or.inr ⟨g, List.mem_cons_of_mem f hg, hh⟩
        · rintro (hm | ⟨g, hg, hh⟩)
          · exact Or.inl (Or.inl hm)
          · rcases List.mem_cons.mp hg with rfl | hg'
            · rcases hh.2 with ⟨hin', _⟩ | ⟨_, hd, hs⟩
              · exact absurd hin' hin
              · exact Or.inl (Or.inr ⟨hd, hs⟩)
            · exact Or.inr ⟨g, hg', hh⟩

theorem mem_nidvMatches (fqdns known : List String) (d : String) :
    d ∈ nidvMatches fqdns known ↔ ∃ f ∈ fqdns, nidvHit known f d := by
  rw [nidvMatches, mem_nidvFold]
  simp

/-! ## Claim C8: domain-to-company matching -/

/-- C8 counterexample: the claim's "matches exactly when the host equals
the domain or ends with `.`+domain" fails when the host itself is in the
known-domain index: for host `a.example.com` and index
`{example.com, a.example.com}`, the suffix condition holds for
`example.com`, yet only `a.example.com` is matched (the exact hit skips
the suffix tier). -/
theorem C8_counterexample :
    pyEndsWith "a.example.com" ("." ++ "example.com") = true ∧
      "example.com" ∉ nidvMatches ["a.example.com"] ["example.com", "a.example.com"] ∧
      match_nidv_company ["a.example.com"] ["example.com", "a.example.com"]
        = "a.example.com" := by
  refine ⟨by decide, ?_, by decide⟩
  decide

/-- C8 (amended): `_under` matches a host to a base exactly when the
normalised host equals the base or ends with `.`+base; `match_nidv_company`
reports, per fqdn, the host itself when it occurs in the known-domain
index, and otherwise exactly the known domains the host ends in at a `.`
label boundary; `shop.example.com` matches `example.com` while
`notexample.com` does not. -/
theorem C8_thm :
    (∀ h base : String,
      underDomain h base = true ↔
        (pyStripDots (pyLower h) = pyStripDots (pyLower base) ∨
          pyEndsWith (pyStripDots (pyLower h))
            ("." ++ pyStripDots (pyLower base)) = true)) ∧
    (∀ (fqdns known : List String) (d : String),
      d ∈ nidvMatches fqdns known ↔ ∃ f ∈ fqdns, nidvHit known f d) ∧
    match_nidv_company ["shop.example.com"] ["example.com"] = "example.com" ∧
    match_nidv_company ["notexample.com"] ["example.com"] = "" ∧
    underDomain "shop.example.com" "example.com" = true ∧
    underDomain "notexample.com" "example.com" = false := by
  refine ⟨?_, mem_nidvMatches, by decide, by decide, by decide, by decide⟩
  intro h base
  simp [underDomain, Bool.or_eq_true, decide_eq_true_eq]

/-! ## Claim C9: completion index scanning -/

theorem mem_companiesFetched (completed companies : List String) (c : String) :
    c ∈ companiesFetched completed companies ↔
      c ∈ companies ∧ pyStrip c ≠ "" ∧ safeNameOfCompany (pyStrip c) ∉ completed := by
  simp only [companiesFetched, List.mem_filter, Bool.and_eq_true, decide_eq_true_eq,
    ne_eq, and_assoc]

theorem lcsn_skips_malformed (files1 files2 : List String) (bad : String)
    (h : matchesHostGlob bad = false ∨ safeNameOfFilename bad = none) :
    load_completed_safe_names (files1 ++ bad :: files2)
      = load_completed_safe_names (files1 ++ files2) := by
  unfold load_completed_safe_names
  rw [List.foldl_append, List.foldl_append, List.foldl_cons]
  congr 1
  rcases h with h | h
  · simp [h]
  · by_cases hg : matchesHostGlob bad
    · simp [hg, h]
    · simp [hg]

/-- C9: keys found by the completion scan are never fetched again (1a),
the fetched set is exactly the input minus the completed keys, the scan
tolerates malformed filenames, and in the service rescan (2) an IP with
existing output files is only re-requested when a rescan is explicitly
confirmed. -/
theorem C9_thm :
    (∀ (completed companies : List String) (c : String),
      c ∈ companiesFetched completed companies ↔
        c ∈ companies ∧ pyStrip c ≠ "" ∧ safeNameOfCompany (pyStrip c) ∉ completed) ∧
    (∀ (files companies : List String) (c : String),
      safeNameOfCompany (pyStrip c) ∈ load_completed_safe_names files →
        c ∉ companiesFetched (load_completed_safe_names files) companies) ∧
    (∀ (files1 files2 : List String) (bad : String),
      matchesHostGlob bad = false ∨ safeNameOfFilename bad = none →
        load_completed_safe_names (files1 ++ bad :: files2)
          = load_completed_safe_names (files1 ++ files2)) ∧
    (∀ (files : List String) (today : String) (ips : List String)
        (rescan_old : Bool) (ip : String),
      ip ∈ ipsToScan files today ips rescan_old ↔
        ip ∈ ips ∧ (datesFor files ip = [] ∨
          (rescan_old = true ∧ datesFor files ip ≠ [] ∧ today ∉ datesFor files ip))) ∧
    (∀ (files : List String) (today : String) (ips : List String) (ip : String),
      datesFor files ip ≠ [] → ip ∉ ipsToScan files today ips false) := by
  have hscan : ∀ (files : List String) (today : String) (ips : List String)
      (rescan_old : Bool) (ip : String),
      ip ∈ ipsToScan files today ips rescan_old ↔
        ip ∈ ips ∧ (datesFor files ip = [] ∨
          (rescan_old = true ∧ datesFor files ip ≠ [] ∧ today ∉ datesFor files ip)) := by
    intro files today ips rescan_old ip
    unfold ipsToScan
    cases rescan_old with
    | false => simp [List.mem_filter]
    | true =>
      simp [List.mem_filter]
      tauto
  refine ⟨mem_companiesFetched, ?_, lcsn_skips_malformed, hscan, ?_⟩
  · intro files companies c hmem hc
    rw [mem_companiesFetched] at hc
    exact hc.2.2 hmem
  · intro files today ips ip hne hc
    rw [hscan] at hc
    rcases hc.2 with hd | ⟨hfalse, _, _⟩
    · exact hne hd
    · exact Bool.false_ne_true hfalse

/-- C9 witness: with one completed host file and one completed service
file, the completed company is skipped and the completed IP is not
re-requested without an explicit rescan. -/
theorem C9_witness :
    "Acme Corp" ∉ companiesFetched
        (load_completed_safe_names ["modat_host_acme_corp_20250101.json"])
        ["Acme Corp", "Other"] ∧
      "1.2.3.4" ∉ ipsToScan ["modat_service_1.2.3.4_20250101.json"] "20250102"
        ["1.2.3.4"] false := by
  constructor
  · intro hc
    have h := (C9_thm.1 (load_completed_safe_names
      ["modat_host_acme_corp_20250101.json"]) ["Acme Corp", "Other"] "Acme Corp").mp hc
    exact absurd h.2.2 (by decide)
  · exact C9_thm.2.2.2.2 ["modat_service_1.2.3.4_20250101.json"] "20250102"
      ["1.2.3.4"] "1.2.3.4" (by decide)

/-! ## Claim C1: crash atomicity of checkpoint saves -/

theorem strMk_append (l1 l2 : List Char) :
    String.mk l1 ++ String.mk l2 = String.mk (l1 ++ l2) := rfl

theorem str_data_append (s t : String) : (s ++ t).data = s.data ++ t.data := by
  cases s; cases t; rfl

theorem str_ne_append_tmp (s : String) : s ≠ s ++ ".tmp" := by
  intro h
  have hd : s.data.length = (s ++ ".tmp").data.length := by rw [← h]
  rw [str_data_append, List.length_append] at hd
  simp at hd

theorem lookup_applyStep_of_ne (fs : Fs) (s : FsStep) (p : String)
    (h : match s with
      | .truncate q => q ≠ p
      | .append q _ => q ≠ p
      | .rename a b => a ≠ p ∧ b ≠ p) :
    List.lookup p (applyStep fs s) = List.lookup p fs := by
  match s with
  | .truncate q => exact lookup_dictSet_ne fs q p _ (Ne.symm h)
  | .append q c => exact lookup_dictSet_ne fs q p _ (Ne.symm h)
  | .rename a b =>
    show List.lookup p (match List.lookup a fs with
      | none => fs
      | some v => dictRemove (dictSet fs b v) a) = List.lookup p fs
    match List.lookup a fs with
    | none => rfl
    | some v =>
      rw [lookup_dictRemove_ne _ _ _ (Ne.symm h.1), lookup_dictSet_ne _ _ _ _ (Ne.symm h.2)]

theorem lookup_runSteps_of_ne (p : String) (l : List FsStep) (fs : Fs)
    (h : ∀ s ∈ l, match s with
      | FsStep.truncate q => q ≠ p
      | FsStep.append q _ => q ≠ p
      | FsStep.rename a b => a ≠ p ∧ b ≠ p) :
    List.lookup p (runSteps fs l) = List.lookup p fs := by
  induction l generalizing fs with
  | nil => rfl
  | cons s r ih =>
    show List.lookup p (runSteps (applyStep fs s) r) = _
    rw [ih _ (fun t ht => h t (List.mem_cons_of_mem s ht)),
      lookup_applyStep_of_ne fs s p (h s (List.mem_cons_self _ _))]

theorem lookup_run_appends (tmp : String) (cs : List Char) (fs : Fs) (acc : String)
    (h : List.lookup tmp fs = some acc) :
    List.lookup tmp (runSteps fs (cs.map (FsStep.append tmp)))
      = some (acc ++ String.mk cs) := by
  induction cs generalizing fs acc with
  | nil =>
    have hmk : acc ++ String.mk [] = acc := by
      cases acc with
      | mk d => rw [strMk_append]; simp
    simpa [runSteps, hmk] using h
  | cons c r ih =>
    show List.lookup tmp
      (runSteps (applyStep fs (FsStep.append tmp c)) (r.map (FsStep.append tmp))) = _
    have hstep : List.lookup tmp (applyStep fs (FsStep.append tmp c))
        = some (acc ++ String.mk [c]) := by
      show List.lookup tmp (dictSet fs tmp ((List.lookup tmp fs).getD "" ++ String.mk [c]))
        = _
      rw [h, lookup_dictSet_self]
      rfl
    rw [ih _ _ hstep]
    congr 1
    cases acc with
    | mk d => simp [strMk_append]

theorem lookup_run_writeText (tmp content : String) (fs : Fs) :
    List.lookup tmp (runSteps fs (writeTextSteps tmp content)) = some content := by
  show List.lookup tmp
    (runSteps (applyStep fs (FsStep.truncate tmp)) (content.data.map (FsStep.append tmp)))
      = some content
  have h0 : List.lookup tmp (applyStep fs (FsStep.truncate tmp)) = some "" :=
    lookup_dictSet_self fs tmp ""
  rw [lookup_run_appends tmp content.data _ "" h0]
  cases content
  rfl

/-- C1 (amended): `write_jsonl_atomic` really is crash-atomic — at every
interruption point the file at `path` holds either the old content or the
complete new serialization, because all writes go to `path + ".tmp"` and
the final rename is a single step. -/
theorem C1_thm (path content : String) :
    CrashAtomic (write_jsonl_atomic_steps path content) path content := by
  intro fs k
  set W := writeTextSteps (path ++ ".tmp") content with hW
  have hne : path ++ ".tmp" ≠ path := fun h => str_ne_append_tmp path h.symm
  by_cases hk : k ≤ W.length
  · left
    have htake : (write_jsonl_atomic_steps path content).take k = W.take k := by
      rw [write_jsonl_atomic_steps, ← hW, List.take_append_of_le_length hk]
    rw [htake]
    apply lookup_runSteps_of_ne
    intro s hs
    have hsW : s ∈ W := List.take_subset k W hs
    rw [hW, writeTextSteps] at hsW
    rcases List.mem_cons.mp hsW with rfl | hsW
    · exact hne
    · obtain ⟨c, _, rfl⟩ := List.mem_map.mp hsW
      exact hne
  · right
    have hlen : (write_jsonl_atomic_steps path content).length ≤ k := by
      rw [write_jsonl_atomic_steps, ← hW, List.length_append]
      simp only [List.length_singleton]
      omega
    rw [List.take_of_length_le hlen, write_jsonl_atomic_steps, ← hW]
    rw [show runSteps fs (W ++ [FsStep.rename (path ++ ".tmp") path])
        = runSteps (runSteps fs W) [FsStep.rename (path ++ ".tmp") path] from
      List.foldl_append _ _ _ _]
    have hw : List.lookup (path ++ ".tmp") (runSteps fs W) = some content :=
      lookup_run_writeText _ _ _
    show List.lookup path (applyStep (runSteps fs W)
      (FsStep.rename (path ++ ".tmp") path)) = some content
    show List.lookup path (match List.lookup (path ++ ".tmp") (runSteps fs W) with
      | none => runSteps fs W
      | some v => dictRemove (dictSet (runSteps fs W) path v) (path ++ ".tmp"))
        = some content
    rw [hw]
    rw [lookup_dictRemove_ne _ _ _ (Ne.symm hne), lookup_dictSet_self]

/-- C1 counterexample: `save_tmp_state` writes the checkpoint file in
place with a plain `write_text`, so an interruption two steps in leaves a
partially written state (here `"N"`), which is neither the previous
checkpoint nor the new one — the claimed temp-file-plus-rename discipline
does not hold for every checkpoint save. -/
theorem C1_counterexample :
    ¬ CrashAtomic (save_tmp_state_steps "NEW") TMP_OUT "NEW" := by
  intro h
  have h2 := h [(TMP_OUT, "OLD")] 2
  revert h2
  decide

/-! ## Claim C3: retry and backoff behaviour of the fetchers -/

theorem fetch_page_go_429 {β : Type v} (api : Nat → HttpEvent β) (w : Nat) (b : β) :
    ∀ (k a r : Nat), k < r →
      (∀ i, a ≤ i → i < a + k → ∃ o, api i = HttpEvent.resp 429 o) →
      api (a + k) = HttpEvent.resp 200 (some b) →
      fetch_page_go api w a r = (FetchOutcome.ok b, (List.range' a k).map (fun i => w * i)) := by
  intro k
  induction k with
  | zero =>
    intro a r hr _ hsucc
    match r, hr with
    | r + 1, _ =>
      simp only [fetch_page_go]
      rw [show a + 0 = a from rfl] at hsucc
      rw [hsucc]
      simp
  | succ k ih =>
    intro a r hr htrans hsucc
    match r, hr with
    | r + 1, hr =>
      obtain ⟨o, ho⟩ := htrans a (Nat.le_refl a) (by omega)
      simp only [fetch_page_go]
      rw [ho]
      simp only [reduceIte, show (429 : Nat) ≠ 200 from by decide]
      have hrest := ih (a + 1) r (by omega)
        (fun i h1 h2 => htrans i (by omega) (by omega))
        (by rw [show a + 1 + k = a + (k + 1) from by omega]; exact hsucc)
      rw [hrest]
      rw [List.range'_succ]
      simp

theorem fetch_nvd_go_transient {β : Type v} (api : Nat → HttpEvent β) (m : ℚ) (b : β) :
    ∀ (k a r : Nat) (d : ℚ), k < r →
      (∀ i, a ≤ i → i < a + k →
        api i = HttpEvent.netErr ∨ ∃ o, api i = HttpEvent.resp 429 o) →
      api (a + k) = HttpEvent.resp 200 (some b) →
      fetch_nvd_go api m a r d
        = (FetchOutcome.ok b, (List.range k).map (fun i => d * m ^ i)) := by
  intro k
  induction k with
  | zero =>
    intro a r d hr _ hsucc
    match r, hr with
    | r + 1, _ =>
      simp only [fetch_nvd_go]
      rw [show a + 0 = a from rfl] at hsucc
      rw [hsucc]
      simp
  | succ k ih =>
    intro a r d hr htrans hsucc
    match r, hr with
    | r + 1, hr =>
      have hrest := ih (a + 1) r (d * m) (by omega)
        (fun i h1 h2 => htrans i (by omega) (by omega))
        (by rw [show a + 1 + k = a + (k + 1) from by omega]; exact hsucc)
      have hmap : d :: (List.range k).map (fun i => d * m * m ^ i)
          = (List.range (k + 1)).map (fun i => d * m ^ i) := by
        rw [List.range_succ_eq_map]
        simp only [List.map_cons, List.map_map, pow_zero, mul_one]
        exact congrArg (List.cons d)
          (List.map_congr_left (fun i _ => by simp [Function.comp, pow_succ]; ring))
      rcases htrans a (Nat.le_refl a) (by omega) with ho | ⟨o, ho⟩
      · simp only [fetch_nvd_go]
        rw [ho, hrest]
        simpa using hmap
      · simp only [fetch_nvd_go]
        rw [ho]
        simp only [reduceIte, show (429 : Nat) ≠ 200 from by decide]
        rw [hrest]
        simpa using hmap

/-- C3 (amended): `fetch_nvd_cve` retries both HTTP 429 and transport
errors, sleeping `base_delay * multiplier^(attempt-1)` before retry
`attempt+1`; `fetch_page`/`post_page` retry only HTTP 429 with linear
`base * attempt` waits and let a transport error propagate as an uncaught
exception; any other non-200 status fails immediately in both, and HTTP
200 yields the decoded body, or a failure when the body does not decode. -/
theorem C3_thm :
    (∀ {β : Type v} (api : Nat → HttpEvent β) (w k : Nat) (b : β),
      k + 1 ≤ 3 →
      (∀ i, 1 ≤ i → i ≤ k → ∃ o, api i = HttpEvent.resp 429 o) →
      api (k + 1) = HttpEvent.resp 200 (some b) →
      fetch_page api w = (FetchOutcome.ok b, (List.range' 1 k).map (fun i => w * i))) ∧
    (∀ {β : Type v} (api : Nat → HttpEvent β) (d m : ℚ) (lim k : Nat) (b : β),
      k + 1 ≤ lim →
      (∀ i, 1 ≤ i → i ≤ k →
        api i = HttpEvent.netErr ∨ ∃ o, api i = HttpEvent.resp 429 o) →
      api (k + 1) = HttpEvent.resp 200 (some b) →
      fetch_nvd_cve api d m lim
        = (FetchOutcome.ok b, (List.range k).map (fun i => d * m ^ i))) ∧
    (∀ {β : Type v} (api : Nat → HttpEvent β) (w : Nat) (d m : ℚ) (lim : Nat)
        (s : Nat) (o : Option β),
      api 1 = HttpEvent.resp s o → s ≠ 200 → s ≠ 429 →
      fetch_page api w = (FetchOutcome.fail, []) ∧
        fetch_nvd_cve api d m lim = (FetchOutcome.fail, [])) ∧
    (∀ {β : Type v} (api : Nat → HttpEvent β) (w : Nat),
      api 1 = HttpEvent.netErr → fetch_page api w = (FetchOutcome.exn, [])) ∧
    (∀ {β : Type v} (api : Nat → HttpEvent β) (w : Nat) (d m : ℚ) (lim : Nat),
      api 1 = HttpEvent.resp 200 none →
      fetch_page api w = (FetchOutcome.fail, []) ∧
        fetch_nvd_cve api d m lim = (FetchOutcome.fail, [])) := by
  refine ⟨?_, ?_, ?_, ?_, ?_⟩
  · intro β api w k b hk htrans hsucc
    exact fetch_page_go_429 api w b k 1 3 (by omega)
      (fun i h1 h2 => htrans i h1 (by omega)) (by rw [Nat.add_comm]; exact hsucc)
  · intro β api d m lim k b hk htrans hsucc
    exact fetch_nvd_go_transient api m b k 1 lim d (by omega)
      (fun i h1 h2 => htrans i h1 (by omega)) (by rw [Nat.add_comm]; exact hsucc)
  · intro β api w d m lim s o hs h200 h429
    constructor
    · simp only [fetch_page, fetch_page_go]
      rw [hs]
      simp [h200, h429]
    · cases lim with
      | zero => rfl
      | succ l =>
        simp only [fetch_nvd_cve, fetch_nvd_go]
        rw [hs]
        simp [h200, h429]
  · intro β api w hnet
    simp only [fetch_page, fetch_page_go]
    rw [hnet]
  · intro β api w d m lim h200
    constructor
    · simp only [fetch_page, fetch_page_go]
      rw [h200]
      simp
    · cases lim with
      | zero => rfl
      | succ l =>
        simp only [fetch_nvd_cve, fetch_nvd_go]
        rw [h200]
        simp

/-- C3 counterexample: a transient network error on the first attempt is
not retried by `fetch_page` — it aborts as an uncaught exception even
though the second attempt would return HTTP 200 — and the first
exponential wait of `fetch_nvd_cve` is the base delay, not
`base * multiplier` as the claimed `base_delay * multiplier^attempt`
formula (1-based attempts) predicts. -/
theorem C3_counterexample :
    fetch_page (fun a => if a = 1 then HttpEvent.netErr
      else HttpEvent.resp 200 (some 7)) 4 = (FetchOutcome.exn, []) ∧
    fetch_nvd_cve (fun a => if a = 1 then HttpEvent.netErr
      else HttpEvent.resp 200 (some 7)) (3 / 4) (17 / 10) 10
      = (FetchOutcome.ok 7, [3 / 4]) ∧
    fetch_nvd_cve (fun a => if a ≤ 2 then HttpEvent.resp 429 none
      else HttpEvent.resp 200 (some 7)) (3 / 4) (17 / 10) 10
      = (FetchOutcome.ok 7, [3 / 4, 3 / 4 * (17 / 10)]) ∧
    (3 / 4 : ℚ) ≠ 3 / 4 * (17 / 10) ^ (1 : ℕ) := by
  refine ⟨by decide, ?_, ?_, by norm_num⟩
  · norm_num [fetch_nvd_cve, fetch_nvd_go]
  · norm_num [fetch_nvd_cve, fetch_nvd_go]

/-- C3 witness: one 429 then success yields the decoded body after a
single linear `4 * 1` wait. -/
theorem C3_witness :
    fetch_page (fun a => if a ≤ 1 then HttpEvent.resp 429 none
      else HttpEvent.resp 200 (some 5)) 4 = (FetchOutcome.ok 5, [4]) := by
  have h := C3_thm.1 (fun a => if a ≤ 1 then HttpEvent.resp 429 none
      else HttpEvent.resp 200 (some 5)) 4 1 5 (by omega)
    (fun i h1 h2 => ⟨none, by
      have hi : i = 1 := by omega
      subst hi
      rfl⟩)
    (by rfl)
  simpa using h

/-! ## Claim C5: merge precedence and refresh buckets -/

theorem mergeFetch_lookup_not_mem {ρ : Type u} (existing : List (String × ρ))
    (fetched : String → Option ρ) (to_fetch : List String) (k : String)
    (h : k ∉ to_fetch) :
    List.lookup k (mergeFetch existing fetched to_fetch) = List.lookup k existing := by
  induction to_fetch generalizing existing with
  | nil => rfl
  | cons c rest ih =>
    have hk : k ≠ c := fun hkc => h (hkc ▸ List.mem_cons_self c rest)
    have hr : k ∉ rest := fun hkr => h (List.mem_cons_of_mem c hkr)
    show List.lookup k (mergeFetch (match fetched c with
      | none => existing
      | some record => dictSet existing c record) fetched rest) = _
    rw [ih _ hr]
    match fetched c with
    | none => rfl
    | some rc => exact lookup_dictSet_ne existing c k rc hk

theorem mergeFetch_lookup_failed {ρ : Type u} (existing : List (String × ρ))
    (fetched : String → Option ρ) (to_fetch : List String) (k : String)
    (h : fetched k = none) :
    List.lookup k (mergeFetch existing fetched to_fetch) = List.lookup k existing := by
  induction to_fetch generalizing existing with
  | nil => rfl
  | cons c rest ih =>
    show List.lookup k (mergeFetch (match fetched c with
      | none => existing
      | some record => dictSet existing c record) fetched rest) = _
    rw [ih]
    by_cases hkc : k = c
    · subst hkc
      rw [h]
    · match fetched c with
      | none => rfl
      | some rc => exact lookup_dictSet_ne existing c k rc hkc

theorem mergeFetch_lookup_fetched {ρ : Type u} (existing : List (String × ρ))
    (fetched : String → Option ρ) (to_fetch : List String) (k : String) (r : ρ)
    (hmem : k ∈ to_fetch) (hf : fetched k = some r) :
    List.lookup k (mergeFetch existing fetched to_fetch) = some r := by
  induction to_fetch generalizing existing with
  | nil => cases hmem
  | cons c rest ih =>
    by_cases hr : k ∈ rest
    · exact ih _ hr
    · have hkc : k = c := by
        rcases List.mem_cons.mp hmem with h | h
        · exact h
        · exact absurd h hr
      subst hkc
      show List.lookup k (mergeFetch (match fetched k with
        | none => existing
        | some record => dictSet existing k record) fetched rest) = some r
      rw [hf, mergeFetch_lookup_not_mem _ _ _ _ hr, lookup_dictSet_self]

theorem mergeFetch_keys_nodup {ρ : Type u} (existing : List (String × ρ))
    (fetched : String → Option ρ) (to_fetch : List String)
    (h : (existing.map Prod.fst).Nodup) :
    ((mergeFetch existing fetched to_fetch).map Prod.fst).Nodup := by
  induction to_fetch generalizing existing with
  | nil => exact h
  | cons c rest ih =>
    show ((mergeFetch (match fetched c with
      | none => existing
      | some record => dictSet existing c record) fetched rest).map Prod.fst).Nodup
    match fetched c with
    | none => exact ih _ h
    | some rc => exact ih _ (keys_dictSet_nodup existing c rc h)

theorem mem_older_than_week (now : Int) (existing : List (String × CveRec)) (k : String) :
    k ∈ older_than_week now existing ↔
      ∃ r, (k, r) ∈ existing ∧ ∃ ts, r.fetched_at = some ts ∧ ts < now - weekSeconds := by
  simp only [older_than_week, List.mem_map, List.mem_filter]
  constructor
  · rintro ⟨⟨k', r⟩, ⟨hmem, hpred⟩, rfl⟩
    refine ⟨r, hmem, ?_⟩
    match hts : r.fetched_at with
    | some ts =>
      rw [hts] at hpred
      exact ⟨ts, rfl, by simpa using hpred⟩
    | none => rw [hts] at hpred; cases hpred
  · rintro ⟨r, hmem, ts, hts, hlt⟩
    exact ⟨(k, r), ⟨hmem, by rw [hts]; simpa using hlt⟩, rfl⟩

theorem mem_older_than_month (now : Int) (existing : List (String × CveRec)) (k : String) :
    k ∈ older_than_month now existing ↔
      ∃ r, (k, r) ∈ existing ∧ ∃ ts, r.fetched_at = some ts ∧ ts < now - monthSeconds := by
  simp only [older_than_month, List.mem_map, List.mem_filter]
  constructor
  · rintro ⟨⟨k', r⟩, ⟨hmem, hpred⟩, rfl⟩
    refine ⟨r, hmem, ?_⟩
    match hts : r.fetched_at with
    | some ts =>
      rw [hts] at hpred
      exact ⟨ts, rfl, by simpa using hpred⟩
    | none => rw [hts] at hpred; cases hpred
  · rintro ⟨r, hmem, ts, hts, hlt⟩
    exact ⟨(k, r), ⟨hmem, by rw [hts]; simpa using hlt⟩, rfl⟩

theorem mem_missing_cvss (existing : List (String × CveRec)) (k : String) :
    k ∈ missing_cvss existing ↔
      ∃ r, (k, r) ∈ existing ∧ nvd_has_any_cvss_metric r = false := by
  simp only [missing_cvss, List.mem_map, List.mem_filter]
  constructor
  · rintro ⟨⟨k', r⟩, ⟨hmem, hpred⟩, rfl⟩
    exact ⟨r, hmem, by simpa using hpred⟩
  · rintro ⟨r, hmem, hpred⟩
    exact ⟨(k, r), ⟨hmem, by simpa using hpred⟩, rfl⟩

theorem mem_rescanSet (now : Int) (existing : List (String × CveRec))
    (w m c : Bool) (k : String) :
    k ∈ rescanSet now existing w m c ↔
      (w = true ∧ k ∈ older_than_week now existing) ∨
        (m = true ∧ k ∈ older_than_month now existing) ∨
          (c = true ∧ k ∈ missing_cvss existing) := by
  cases w <;> cases m <;> cases c <;> simp [rescanSet]

/-- C5: the fetch loop merges by whole-record overwrite — a key fetched
this run maps to exactly the freshly fetched record, a key not fetched
(or whose fetch failed) keeps its existing record unchanged, key
uniqueness is preserved — and the refresh buckets are exactly the records
older than a week, older than a month, or with missing CVSS metrics, each
independently selectable into the rescan set. -/
theorem C5_thm :
    (∀ {ρ : Type u} (existing : List (String × ρ)) (fetched : String → Option ρ)
        (to_fetch : List String) (k : String) (r : ρ),
      k ∈ to_fetch → fetched k = some r →
        List.lookup k (mergeFetch existing fetched to_fetch) = some r) ∧
    (∀ {ρ : Type u} (existing : List (String × ρ)) (fetched : String → Option ρ)
        (to_fetch : List String) (k : String),
      k ∉ to_fetch ∨ fetched k = none →
        List.lookup k (mergeFetch existing fetched to_fetch) = List.lookup k existing) ∧
    (∀ {ρ : Type u} (existing : List (String × ρ)) (fetched : String → Option ρ)
        (to_fetch : List String),
      (existing.map Prod.fst).Nodup →
        ((mergeFetch existing fetched to_fetch).map Prod.fst).Nodup) ∧
    (∀ (now : Int) (existing : List (String × CveRec)) (k : String),
      (k ∈ older_than_week now existing ↔
        ∃ r, (k, r) ∈ existing ∧ ∃ ts, r.fetched_at = some ts ∧ ts < now - weekSeconds) ∧
      (k ∈ older_than_month now existing ↔
        ∃ r, (k, r) ∈ existing ∧ ∃ ts, r.fetched_at = some ts ∧ ts < now - monthSeconds) ∧
      (k ∈ missing_cvss existing ↔
        ∃ r, (k, r) ∈ existing ∧ nvd_has_any_cvss_metric r = false)) ∧
    (∀ (now : Int) (existing : List (String × CveRec)) (w m c : Bool) (k : String),
      k ∈ rescanSet now existing w m c ↔
        (w = true ∧ k ∈ older_than_week now existing) ∨
          (m = true ∧ k ∈ older_than_month now existing) ∨
            (c = true ∧ k ∈ missing_cvss existing)) := by
  refine ⟨?_, ?_, ?_, ?_, mem_rescanSet⟩
  · intro ρ existing fetched to_fetch k r hmem hf
    exact mergeFetch_lookup_fetched existing fetched to_fetch k r hmem hf
  · intro ρ existing fetched to_fetch k h
    rcases h with h | h
    · exact mergeFetch_lookup_not_mem existing fetched to_fetch k h
    · exact mergeFetch_lookup_failed existing fetched to_fetch k h
  · intro ρ existing fetched to_fetch h
    exact mergeFetch_keys_nodup existing fetched to_fetch h
  · intro now existing k
    exact ⟨mem_older_than_week now existing k, mem_older_than_month now existing k,
      mem_missing_cvss existing k⟩

/-- C5 witness: a freshly fetched record replaces the stale one wholesale,
and the untouched key keeps its record. -/
theorem C5_witness :
    List.lookup "CVE-2024-0001"
        (mergeFetch [("CVE-2024-0001", (0 : Nat)), ("CVE-2024-0002", 5)]
          (fun k => if k = "CVE-2024-0001" then some 9 else none)
          ["CVE-2024-0001"])
      = some 9 ∧
    List.lookup "CVE-2024-0002"
        (mergeFetch [("CVE-2024-0001", (0 : Nat)), ("CVE-2024-0002", 5)]
          (fun k => if k = "CVE-2024-0001" then some 9 else none)
          ["CVE-2024-0001"])
      = some 5 := by
  constructor
  · exact C5_thm.1 _ _ _ "CVE-2024-0001" 9 (List.mem_cons_self _ _) (by decide)
  · have h := C5_thm.2.1 [("CVE-2024-0001", (0 : Nat)), ("CVE-2024-0002", 5)]
      (fun k => if k = "CVE-2024-0001" then some 9 else none)
      ["CVE-2024-0001"] "CVE-2024-0002" (Or.inl (by decide))
    rw [h]
    decide

/-! ## Claims C6 and C10: the flattening rules -/

theorem str_ne_append_of_data_ne_nil (s t : String) (h : t.data ≠ []) :
    s ≠ s ++ t := by
  intro he
  have hd : s.data.length = (s ++ t).data.length := by rw [← he]
  rw [str_data_append, List.length_append] at hd
  have : t.data.length = 0 := by omega
  exact h (List.length_eq_zero.mp this)

theorem count_key_ne_raw (p : String) : p ++ "_count" ≠ rawCertKey := by
  intro h
  have hlast : (p.data ++ "_count".data).getLast? = rawCertKey.data.getLast? := by
    rw [← str_data_append, h]
  rw [List.getLast?_append] at hlast
  rw [show "_count".data.getLast? = some 't' from by decide] at hlast
  rw [show rawCertKey.data.getLast? = some 'w' from by decide] at hlast
  simp [Option.or] at hlast

theorem dictSet_append_of_not_mem [DecidableEq α] (l : List (α × β)) (k : α) (v : β)
    (h : k ∉ l.map Prod.fst) : dictSet l k v = l ++ [(k, v)] := by
  induction l with
  | nil => rfl
  | cons kv rest ih =>
    obtain ⟨k', v'⟩ := kv
    simp only [List.map_cons, List.mem_cons] at h
    push_neg at h
    simp only [dictSet, if_neg h.1, List.cons_append]
    rw [ih h.2]

theorem dictMerge_nil_of_nodup [DecidableEq α] (l : List (α × β))
    (h : (l.map Prod.fst).Nodup) : dictMerge [] l = l := by
  suffices haux : ∀ (e acc : List (α × β)), (e.map Prod.fst).Nodup →
      (∀ k ∈ e.map Prod.fst, k ∉ acc.map Prod.fst) → dictMerge acc e = acc ++ e by
    simpa using haux l [] h (by simp)
  intro e
  induction e with
  | nil => intro acc _ _; simp [dictMerge]
  | cons kv rest ih =>
    intro acc hnd hdisj
    obtain ⟨k, v⟩ := kv
    simp only [List.map_cons, List.nodup_cons] at hnd
    show dictMerge (dictSet acc k v) rest = acc ++ (k, v) :: rest
    rw [dictSet_append_of_not_mem acc k v (hdisj k (by simp)), ih _ hnd.2, List.append_assoc]
    · rfl
    · intro q hq
      rw [List.map_append]
      simp only [List.mem_append, List.map_cons]
      rintro (hqa | hqk)
      · exact hdisj q (List.mem_cons_of_mem _ hq) hqa
      · simp only [List.map_nil, List.mem_singleton] at hqk
        subst hqk
        exact hnd.1 hq

theorem keys_dictMerge [DecidableEq α] (d e : List (α × β)) (a : α) :
    a ∈ (dictMerge d e).map Prod.fst ↔ a ∈ d.map Prod.fst ∨ a ∈ e.map Prod.fst := by
  induction e generalizing d with
  | nil => simp [dictMerge]
  | cons kv rest ih =>
    obtain ⟨k, v⟩ := kv
    show a ∈ (dictMerge (dictSet d k v) rest).map Prod.fst ↔ _
    rw [ih, keys_dictSet]
    simp only [List.map_cons, List.mem_cons]
    tauto

theorem keys_dictMerge_nodup [DecidableEq α] (d e : List (α × β))
    (h : (d.map Prod.fst).Nodup) : ((dictMerge d e).map Prod.fst).Nodup := by
  induction e generalizing d with
  | nil => exact h
  | cons kv rest ih =>
    exact ih _ (keys_dictSet_nodup d kv.1 kv.2 h)

theorem flatten_arr_scalar (xs : List Json) (p : String)
    (hs : xs.all jsonIsScalar = true) (hp : p ≠ "") :
    flatten (.arr xs) p =
      [(p ++ "_count", natStr ((xs.filter (fun x => !jsonIsNull x)).map pyStrScalar).length),
       (p, String.mk (cleanChars
         (joinStr ";" ((xs.filter (fun x => !jsonIsNull x)).map pyStrScalar)).data))] := by
  have hne : p ≠ p ++ "_count" := str_ne_append_of_data_ne_nil p "_count" (by decide)
  simp only [flatten]
  rw [if_pos hs, if_pos hp]
  rw [show dictSet [(p ++ "_count", natStr xs.length)] p
      (String.mk (cleanChars
        (joinStr ";" ((xs.filter (fun x => !jsonIsNull x)).map pyStrScalar)).data))
    = [(p ++ "_count", natStr xs.length),
       (p, String.mk (cleanChars
         (joinStr ";" ((xs.filter (fun x => !jsonIsNull x)).map pyStrScalar)).data))] from by
    simp [dictSet, hne]]
  simp [dictSet]

theorem flatten_arr_mixed (xs : List Json) (p : String)
    (hs : ¬ xs.all jsonIsScalar = true) (hp : p ≠ "") :
    flatten (.arr xs) p =
      [(p ++ "_count", natStr xs.length), (p, dict_to_clean_string (.arr xs))] := by
  have hne : p ≠ p ++ "_count" := str_ne_append_of_data_ne_nil p "_count" (by decide)
  simp only [flatten]
  rw [if_neg hs, if_pos hp]
  simp [dictSet, hne]

theorem flatten_arr_keys (xs : List Json) (p : String) (a : String)
    (h : a ∈ (flatten (.arr xs) p).map Prod.fst) : a = p ∨ a = p ++ "_count" := by
  have hbase : ∀ b, b ∈ ((if p ≠ "" then [(p ++ "_count", natStr xs.length)]
      else ([] : List (String × String))).map Prod.fst) → b = p ++ "_count" := by
    intro b hb
    split at hb
    · simpa using hb
    · simp at hb
  simp only [flatten] at h
  by_cases hs : xs.all jsonIsScalar = true
  · rw [if_pos hs] at h
    rcases (keys_dictSet _ _ _ _).mp h with h | h
    · rcases (keys_dictSet _ _ _ _).mp h with h | h
      · exact Or.inr (hbase a h)
      · exact Or.inl h
    · exact Or.inr h
  · rw [if_neg hs] at h
    rcases (keys_dictSet _ _ _ _).mp h with h | h
    · exact Or.inr (hbase a h)
    · exact Or.inl h

theorem flatten_keys_nodup (j : Json) (p : String) :
    ((flatten j p).map Prod.fst).Nodup := by
  have hobj : ∀ (kvs : List (String × Json)) (q : String) (items : List (String × String)),
      ((items.map Prod.fst).Nodup) → ((flattenObj kvs q items).map Prod.fst).Nodup := by
    intro kvs
    induction kvs with
    | nil => intro q items h; exact h
    | cons kv rest ih =>
      intro q items h
      obtain ⟨k, v⟩ := kv
      show ((if joinKey q k = rawCertKey then flattenObj rest q items
        else flattenObj rest q (dictMerge items (flatten v (joinKey q k)))).map
          Prod.fst).Nodup
      by_cases hraw : joinKey q k = rawCertKey
      · rw [if_pos hraw]; exact ih q items h
      · rw [if_neg hraw]; exact ih q _ (keys_dictMerge_nodup items _ h)
  match j with
  | .obj kvs => exact hobj kvs p [] (by simp)
  | .arr xs =>
    have hbase : (((if p ≠ "" then [(p ++ "_count", natStr xs.length)]
        else ([] : List (String × String)))).map Prod.fst).Nodup := by
      split <;> simp
    show ((flatten (.arr xs) p).map Prod.fst).Nodup
    simp only [flatten]
    by_cases hs : xs.all jsonIsScalar = true
    · rw [if_pos hs]
      exact keys_dictSet_nodup _ _ _ (keys_dictSet_nodup _ _ _ hbase)
    · rw [if_neg hs]
      exact keys_dictSet_nodup _ _ _ hbase
  | .null => simp [flatten]
  | .bool b => simp [flatten]
  | .num n => simp [flatten]
  | .str s => simp [flatten]

theorem flatten_obj_singleton (k : String) (v : Json) (p : String)
    (h : joinKey p k ≠ rawCertKey) :
    flatten (.obj [(k, v)]) p = flatten v (joinKey p k) := by
  show flattenObj [(k, v)] p [] = _
  show (if joinKey p k = rawCertKey then flattenObj [] p []
    else flattenObj [] p (dictMerge [] (flatten v (joinKey p k)))) = _
  rw [if_neg h]
  show dictMerge [] (flatten v (joinKey p k)) = _
  exact dictMerge_nil_of_nodup _ (flatten_keys_nodup v (joinKey p k))

theorem flatten_no_rawKey (j : Json) (p : String) :
    p ≠ rawCertKey → rawCertKey ∉ (flatten j p).map Prod.fst := by
  refine flatten.induct
    (fun j p => p ≠ rawCertKey → rawCertKey ∉ (flatten j p).map Prod.fst)
    (fun kvs q items => rawCertKey ∉ items.map Prod.fst →
      rawCertKey ∉ (flattenObj kvs q items).map Prod.fst)
    ?_ ?_ ?_ ?_ ?_ ?_ ?_ j p
  · intro kvs parent_key ih _
    exact ih (by simp)
  · intro xs parent_key _ hp hmem
    rcases flatten_arr_keys xs parent_key rawCertKey hmem with h | h
    · exact hp h.symm
    · exact count_key_ne_raw parent_key h.symm
  · intro xs parent_key _ hp hmem
    rcases flatten_arr_keys xs parent_key rawCertKey hmem with h | h
    · exact hp h.symm
    · exact count_key_ne_raw parent_key h.symm
  · intro j parent_key hobj harr hp hmem
    match j, hobj, harr with
    | .null, _, _ =>
      simp [flatten] at hmem
      exact hp hmem.symm
    | .bool b, _, _ =>
      simp [flatten] at hmem
      exact hp hmem.symm
    | .num n, _, _ =>
      simp [flatten] at hmem
      exact hp hmem.symm
    | .str s, _, _ =>
      simp [flatten] at hmem
      exact hp hmem.symm
    | .obj kvs, hobj, _ => exact absurd rfl (hobj kvs)
    | .arr xs, _, harr => exact absurd rfl (harr xs)
  · intro x items h
    exact h
  · intro k v rest parent_key items new_key hraw ih hitems
    replace hraw : joinKey parent_key k = rawCertKey := hraw
    show rawCertKey ∉ ((if joinKey parent_key k = rawCertKey then
      flattenObj rest parent_key items
      else flattenObj rest parent_key
        (dictMerge items (flatten v (joinKey parent_key k)))).map Prod.fst)
    rw [if_pos hraw]
    exact ih hitems
  · intro k v rest parent_key items new_key hraw ih1 ih2 hitems
    replace hraw : ¬ joinKey parent_key k = rawCertKey := hraw
    replace ih1 : joinKey parent_key k ≠ rawCertKey →
      rawCertKey ∉ (flatten v (joinKey parent_key k)).map Prod.fst := ih1
    replace ih2 : rawCertKey ∉
        (dictMerge items (flatten v (joinKey parent_key k))).map Prod.fst →
      rawCertKey ∉ (flattenObj rest parent_key
        (dictMerge items (flatten v (joinKey parent_key k)))).map Prod.fst := ih2
    show rawCertKey ∉ ((if joinKey parent_key k = rawCertKey then
      flattenObj rest parent_key items
      else flattenObj rest parent_key
        (dictMerge items (flatten v (joinKey parent_key k)))).map Prod.fst)
    rw [if_neg hraw]
    refine ih2 ?_
    rw [keys_dictMerge]
    rintro (hm | hm)
    · exact hitems hm
    · exact ih1 hraw hm

/-- C10: for a list of exclusively scalar elements, `flatten` drops the
`None` entries from the joined cell, sets the sibling `_count` key to the
number of non-`None` elements, and that count is strictly smaller than the
list length whenever a `None` is present. -/
theorem C10_thm (xs : List Json) (p : String)
    (hs : xs.all jsonIsScalar = true) (hp : p ≠ "") :
    List.lookup (p ++ "_count") (flatten (.arr xs) p)
        = some (natStr ((xs.filter (fun x => !jsonIsNull x)).map pyStrScalar).length) ∧
    List.lookup p (flatten (.arr xs) p)
        = some (String.mk (cleanChars
            (joinStr ";" ((xs.filter (fun x => !jsonIsNull x)).map pyStrScalar)).data)) ∧
    (Json.null ∈ xs →
      ((xs.filter (fun x => !jsonIsNull x)).map pyStrScalar).length < xs.length) := by
  have hne : p ≠ p ++ "_count" := str_ne_append_of_data_ne_nil p "_count" (by decide)
  rw [flatten_arr_scalar xs p hs hp]
  refine ⟨?_, ?_, ?_⟩
  · simp [List.lookup]
  · simp [List.lookup, beq_false_of_ne hne]
  · intro hnull
    rw [List.length_map]
    have : ∃ x ∈ xs, ¬ (!jsonIsNull x) = true := ⟨Json.null, hnull, by decide⟩
    calc (xs.filter (fun x => !jsonIsNull x)).length
        < xs.length := by
          rcases this with ⟨x, hx, hpx⟩
          exact List.length_filter_lt_length_iff_exists.mpr ⟨x, hx, hpx⟩

/-- C10 witness: `["x", None, "y"]` under key `k` yields cell `x;y` and
count `2 < 3`. -/
theorem C10_witness :
    List.lookup ("k" ++ "_count") (flatten (.arr [.str "x", .null, .str "y"]) "k")
        = some "2" ∧
      List.lookup "k" (flatten (.arr [.str "x", .null, .str "y"]) "k") = some "x;y" ∧
      (2 : Nat) < 3 := by
  have h := C10_thm [.str "x", .null, .str "y"] "k" rfl (by decide)
  refine ⟨?_, ?_, by decide⟩
  · rw [h.1]
    decide
  · rw [h.2.1]
    decide

/-- C6: `flatten` joins nested object keys with `.`, turns
exclusively-scalar lists into one joined cell plus a sibling `_count`
key, serializes lists with nested structure to the canonical sorted-key
JSON string, elides `service.tls.raw` everywhere, and is deterministic.
The final conjunct exhibits the key-sorting of the canonical
serialization on a concrete object. -/
theorem C6_thm :
    (∀ (k : String) (v : Json) (p : String), joinKey p k ≠ rawCertKey →
      flatten (.obj [(k, v)]) p = flatten v (joinKey p k)) ∧
    (∀ (k1 k2 : String) (v : Json), k1 ≠ "" → k1 ≠ rawCertKey →
      k1 ++ "." ++ k2 ≠ rawCertKey →
      flatten (.obj [(k1, .obj [(k2, v)])]) "" = flatten v (k1 ++ "." ++ k2)) ∧
    (∀ (xs : List Json) (p : String), xs.all jsonIsScalar = true → p ≠ "" →
      flatten (.arr xs) p =
        [(p ++ "_count",
            natStr ((xs.filter (fun x => !jsonIsNull x)).map pyStrScalar).length),
         (p, String.mk (cleanChars
           (joinStr ";" ((xs.filter (fun x => !jsonIsNull x)).map pyStrScalar)).data))]) ∧
    (∀ (xs : List Json) (p : String), ¬ xs.all jsonIsScalar = true → p ≠ "" →
      flatten (.arr xs) p =
        [(p ++ "_count", natStr xs.length), (p, dict_to_clean_string (.arr xs))]) ∧
    (∀ j : Json, rawCertKey ∉ (flatten j "").map Prod.fst) ∧
    (∀ (j : Json) (p : String), flatten j p = flatten j p) ∧
    dict_to_clean_string (.obj [("b", .num 2), ("a", .num 1)])
      = String.mk (lbrace :: "\"a\": 1, \"b\": 2".data ++ [rbrace]) := by
  refine ⟨fun k v p h => flatten_obj_singleton k v p h, ?_, flatten_arr_scalar,
    flatten_arr_mixed, fun j => flatten_no_rawKey j "" (by decide), fun j p => rfl, ?_⟩
  · intro k1 k2 v h1 hr1 hr2
    have hj1 : joinKey "" k1 = k1 := by simp [joinKey]
    have hj2 : joinKey k1 k2 = k1 ++ "." ++ k2 := by simp [joinKey, h1]
    rw [flatten_obj_singleton k1 _ "" (by rw [hj1]; exact hr1), hj1,
      flatten_obj_singleton k2 v k1 (by rw [hj2]; exact hr2), hj2]
  · show String.mk (cleanChars (pyDumps _)) = _
    simp only [pyDumps, pyDumpsEntries, pySorted, insertSorted, strLeb, strLeb.go,
      jsonQuote, jsonEscapeChar, joinChunks, intChars, natChars, natCharsCore, digitChar]
    decide

/-- C6 witness: a nested object flattens to the dot-joined key, and the
raw-certificate key is elided on a concrete record. -/
theorem C6_witness :
    flatten (.obj [("service", .obj [("port", .num 80)])]) ""
        = flatten (.num 80) ("service" ++ "." ++ "port") ∧
      rawCertKey ∉ (flatten (.obj [("service", .obj [("tls",
        .obj [("raw", .str "CERT"), ("version", .str "1.3")])])]) "").map Prod.fst := by
  constructor
  · exact C6_thm.2.1 "service" "port" (.num 80) (by decide) (by decide) (by decide)
  · exact C6_thm.2.2.2.2.1 _

/-! ## Claims C2 and C4: resume semantics and checkpoint monotonicity -/

theorem insertSorted_perm (le : α → α → Bool) (x : α) (l : List α) :
    List.Perm (insertSorted le x l) (x :: l) := by
  induction l with
  | nil => exact List.Perm.refl _
  | cons y r ih =>
    show List.Perm (if le x y then x :: y :: r else y :: insertSorted le x r) _
    by_cases h : le x y
    · rw [if_pos h]
    · rw [if_neg h]
      exact (List.Perm.cons y ih).trans (List.Perm.swap x y r)

theorem pySorted_perm (le : α → α → Bool) (l : List α) :
    List.Perm (pySorted le l) l := by
  induction l with
  | nil => exact List.Perm.refl _
  | cons x r ih =>
    exact (insertSorted_perm le x (pySorted le r)).trans (List.Perm.cons x ih)

theorem mem_sortedNat (l : List Nat) (q : Nat) : q ∈ sortedNat l ↔ q ∈ l :=
  (pySorted_perm natLeb l).mem_iff

theorem insertSorted_sorted_nat (x : Nat) (l : List Nat)
    (h : l.Sorted (· ≤ ·)) : (insertSorted natLeb x l).Sorted (· ≤ ·) := by
  induction l with
  | nil => simp [insertSorted]
  | cons y r ih =>
    show (if natLeb x y then x :: y :: r else y :: insertSorted natLeb x r).Sorted _
    obtain ⟨hy, hr⟩ := List.sorted_cons.mp h
    by_cases hxy : natLeb x y
    · rw [if_pos hxy]
      have hxy' : x ≤ y := by simpa [natLeb] using hxy
      refine List.sorted_cons.mpr ⟨?_, h⟩
      intro b hb
      rcases List.mem_cons.mp hb with rfl | hb
      · exact hxy'
      · exact le_trans hxy' (hy b hb)
    · rw [if_neg hxy]
      have hyx : y ≤ x := by
        have hnot : ¬ x ≤ y := by simpa [natLeb] using hxy
        omega
      refine List.sorted_cons.mpr ⟨?_, ih hr⟩
      intro b hb
      rcases List.mem_cons.mp ((insertSorted_perm natLeb x r).mem_iff.mp hb) with rfl | hb
      · exact hyx
      · exact hy b hb

theorem sortedNat_sorted (l : List Nat) : (sortedNat l).Sorted (· ≤ ·) := by
  induction l with
  | nil => simp [sortedNat, pySorted]
  | cons x r ih => exact insertSorted_sorted_nat x (pySorted natLeb r) ih

theorem sortedNat_eq_of_mem_iff (l1 l2 : List Nat) (h1 : l1.Nodup) (h2 : l2.Nodup)
    (h : ∀ q, q ∈ l1 ↔ q ∈ l2) : sortedNat l1 = sortedNat l2 := by
  have hperm : List.Perm (sortedNat l1) (sortedNat l2) := by
    have e1 := pySorted_perm natLeb l1
    have e2 := pySorted_perm natLeb l2
    exact (e1.trans ((List.perm_ext_iff_of_nodup h1 h2).mpr h)).trans e2.symm
  exact List.eq_of_perm_of_sorted hperm (sortedNat_sorted l1) (sortedNat_sorted l2)

/-- Checkpoint extension: pages never drop out and stored page results
are never removed. -/
def StExt {ρ : Type u} (s s' : HState ρ) : Prop :=
  (∀ p, p ∈ s.pages_done → p ∈ s'.pages_done) ∧
    (∀ q v, List.lookup q s.results_by_page = some v →
      List.lookup q s'.results_by_page = some v)

theorem StExt_refl {ρ : Type u} (s : HState ρ) : StExt s s :=
  ⟨fun _ h => h, fun _ _ h => h⟩

theorem StExt_trans {ρ : Type u} {a b c : HState ρ} (h1 : StExt a b) (h2 : StExt b c) :
    StExt a c :=
  ⟨fun p hp => h2.1 p (h1.1 p hp), fun q v hv => h2.2 q v (h1.2 q v hv)⟩

theorem chain'_snoc_extend {γ : Type u} {R : γ → γ → Prop}
    (htrans : ∀ {a b c : γ}, R a b → R b c → R a c) (hrefl : ∀ a : γ, R a a)
    (l : List γ) (a b : γ) (h : List.Chain' R (l ++ [a])) (hab : R a b) :
    List.Chain' R ((l ++ [b]) ++ [b]) := by
  rw [List.chain'_append] at h
  rw [List.chain'_append, List.chain'_append]
  refine ⟨⟨h.1, by simp, ?_⟩, by simp, ?_⟩
  · intro x hx y hy
    simp only [List.head?_cons, Option.mem_def, Option.some.injEq] at hy
    subst hy
    exact htrans (h.2.2 x hx a (by simp)) hab
  · intro x hx y hy
    simp only [List.head?_cons, Option.mem_def, Option.some.injEq] at hy
    subst hy
    have hbx : b = x := by
      rcases l with _ | ⟨z, zs⟩
      · simpa using hx
      · rw [List.getLast?_append] at hx
        simpa [Option.or] using hx
    subst hbx
    exact hrefl _

theorem orNat_some_pos (n d : Nat) (hn : 0 < n) : orNat (some n) d = n := by
  match n, hn with
  | m + 1, _ => rfl

theorem harvestLoop_ok {ρ : Type u} (api : Nat → Option (ApiResp ρ))
    (resp : Nat → ApiResp ρ) (n : Nat) (hn : 0 < n)
    (hapi : ∀ p, 1 ≤ p → p ≤ n →
      api p = some (resp p) ∧ (resp p).total_pages = some n) :
    ∀ (L : List Nat) (ls : LoopState ρ), L.Nodup → (∀ p ∈ L, 1 ≤ p ∧ p ≤ n) →
      ls.tp = n → ls.st.total_pages = some n →
      (harvestLoop api L ls).1 = true ∧
      (harvestLoop api L ls).2.tp = n ∧
      (harvestLoop api L ls).2.st.total_pages = some n ∧
      (harvestLoop api L ls).2.st.query = ls.st.query ∧
      (harvestLoop api L ls).2.st.meta = ls.st.meta ∧
      (harvestLoop api L ls).2.req = ls.req ++ L.filter (fun p => p ∉ ls.pd) ∧
      (∀ q, q ∈ (harvestLoop api L ls).2.pd ↔ q ∈ ls.pd ∨ q ∈ L) ∧
      (∀ q, List.lookup q (harvestLoop api L ls).2.st.results_by_page =
        if q ∈ L ∧ q ∉ ls.pd then some (extract_results (resp q))
        else List.lookup q ls.st.results_by_page) ∧
      (∀ q, q ∈ (harvestLoop api L ls).2.st.results_by_page.map Prod.fst ↔
        (q ∈ L ∧ q ∉ ls.pd) ∨ q ∈ ls.st.results_by_page.map Prod.fst) := by
  intro L
  induction L with
  | nil =>
    intro ls _ _ htp hst
    refine ⟨rfl, htp, hst, rfl, rfl, by simp [harvestLoop], fun q => by simp [harvestLoop],
      fun q => by simp [harvestLoop], fun q => by simp [harvestLoop]⟩
  | cons p rest ih =>
    intro ls hnd hbnd htp hst
    obtain ⟨hpr, hnd'⟩ := List.nodup_cons.mp hnd
    have hpb := hbnd p (List.mem_cons_self _ _)
    have hbnd' : ∀ q ∈ rest, 1 ≤ q ∧ q ≤ n :=
      fun q hq => hbnd q (List.mem_cons_of_mem _ hq)
    by_cases hmem : p ∈ ls.pd
    · have hloop : harvestLoop api (p :: rest) ls = harvestLoop api rest ls := by
        show (if p ∈ ls.pd then harvestLoop api rest ls else _) = _
        rw [if_pos hmem]
      rw [hloop]
      obtain ⟨h1, h2, h3, h4, h5, h6, h7, h8, h9⟩ := ih ls hnd' hbnd' htp hst
      refine ⟨h1, h2, h3, h4, h5, ?_, ?_, ?_, ?_⟩
      · rw [h6]
        congr 1
        rw [List.filter_cons_of_neg (by simpa using hmem)]
      · intro q
        rw [h7]
        constructor
        · rintro (h | h)
          · exact Or.inl h
          · exact Or.inr (List.mem_cons_of_mem _ h)
        · rintro (h | h)
          · exact Or.inl h
          · rcases List.mem_cons.mp h with rfl | h
            · exact Or.inl hmem
            · exact Or.inr h
      · intro q
        rw [h8]
        by_cases hq : q ∈ rest ∧ q ∉ ls.pd
        · rw [if_pos hq, if_pos ⟨List.mem_cons_of_mem _ hq.1, hq.2⟩]
        · rw [if_neg hq, if_neg ?_]
          rintro ⟨hq1, hq2⟩
          rcases List.mem_cons.mp hq1 with rfl | hq1
          · exact hq2 hmem
          · exact hq ⟨hq1, hq2⟩
      · intro q
        rw [h9]
        constructor
        · rintro (⟨h, h'⟩ | h)
          · exact Or.inl ⟨List.mem_cons_of_mem _ h, h'⟩
          · exact Or.inr h
        · rintro (⟨h, h'⟩ | h)
          · rcases List.mem_cons.mp h with rfl | h
            · exact absurd hmem h'
            · exact Or.inl ⟨h, h'⟩
          · exact Or.inr h
    · obtain ⟨happ, hrtp⟩ := hapi p hpb.1 hpb.2
      have hloop : harvestLoop api (p :: rest) ls = harvestLoop api rest
          ⟨{ ls.st with
              total_pages := some (orNat (resp p).total_pages ls.tp),
              results_by_page :=
                dictSet ls.st.results_by_page p (extract_results (resp p)),
              pages_done := sortedNat (addNoDup ls.pd p) },
            addNoDup ls.pd p, orNat (resp p).total_pages ls.tp,
            ls.req ++ [p],
            ls.saved ++ [{ ls.st with
              total_pages := some (orNat (resp p).total_pages ls.tp),
              results_by_page :=
                dictSet ls.st.results_by_page p (extract_results (resp p)),
              pages_done := sortedNat (addNoDup ls.pd p) }]⟩ := by
        show (if p ∈ ls.pd then _ else _) = _
        rw [if_neg hmem, happ]
      have htp' : orNat (resp p).total_pages ls.tp = n := by
        rw [hrtp]
        exact orNat_some_pos n ls.tp hn
      rw [hloop]
      set st' : HState ρ := { ls.st with
        total_pages := some (orNat (resp p).total_pages ls.tp),
        results_by_page := dictSet ls.st.results_by_page p (extract_results (resp p)),
        pages_done := sortedNat (addNoDup ls.pd p) } with hst'
      obtain ⟨h1, h2, h3, h4, h5, h6, h7, h8, h9⟩ :=
        ih ⟨st', addNoDup ls.pd p, orNat (resp p).total_pages ls.tp,
          ls.req ++ [p], ls.saved ++ [st']⟩ hnd' hbnd' htp' (by rw [hst', htp'])
      have hfilter : rest.filter (fun q => q ∉ addNoDup ls.pd p)
          = rest.filter (fun q => q ∉ ls.pd) := by
        apply List.filter_congr
        intro x hx
        have hxp : x ≠ p := fun h => hpr (h ▸ hx)
        simp [mem_addNoDup, hxp]
      refine ⟨h1, h2, h3, ?_, ?_, ?_, ?_, ?_, ?_⟩
      · rw [h4, hst']
      · rw [h5, hst']
      · rw [h6]
        show ls.req ++ [p] ++ _ = _
        rw [hfilter, List.filter_cons_of_pos (by simpa using hmem), List.append_assoc]
        rfl
      · intro q
        rw [h7, mem_addNoDup]
        constructor
        · rintro ((h | h) | h)
          · exact Or.inl h
          · exact Or.inr (h ▸ List.mem_cons_self _ _)
          · exact Or.inr (List.mem_cons_of_mem _ h)
        · rintro (h | h)
          · exact Or.inl (Or.inl h)
          · rcases List.mem_cons.mp h with rfl | h
            · exact Or.inl (Or.inr rfl)
            · exact Or.inr h
      · intro q
        rw [h8]
        by_cases hqp : q = p
        · subst hqp
          rw [if_neg (fun hc => hpr hc.1), if_pos ⟨List.mem_cons_self _ _, hmem⟩]
          rw [hst']
          show List.lookup q (dictSet ls.st.results_by_page q _) = _
          rw [lookup_dictSet_self]
        · have hmem' : q ∈ addNoDup ls.pd p ↔ q ∈ ls.pd := by
            rw [mem_addNoDup]
            simp [hqp]
          by_cases hq : q ∈ rest ∧ q ∉ ls.pd
          · rw [if_pos ⟨hq.1, fun hc => hq.2 (hmem'.mp hc)⟩,
              if_pos ⟨List.mem_cons_of_mem _ hq.1, hq.2⟩]
          · rw [if_neg (fun hc => hq ⟨hc.1, fun hm => hc.2 (hmem'.mpr hm)⟩), if_neg ?_]
            · rw [hst']
              show List.lookup q (dictSet ls.st.results_by_page p _) = _
              rw [lookup_dictSet_ne _ _ _ _ hqp]
            · rintro ⟨hq1, hq2⟩
              rcases List.mem_cons.mp hq1 with rfl | hq1
              · exact hqp rfl
              · exact hq ⟨hq1, hq2⟩
      · intro q
        rw [h9]
        have hkeys : q ∈ st'.results_by_page.map Prod.fst ↔
            q ∈ ls.st.results_by_page.map Prod.fst ∨ q = p := by
          rw [hst']
          exact keys_dictSet _ _ _ _
        by_cases hqp : q = p
        · subst hqp
          simp only [hkeys]
          constructor
          · intro _
            exact Or.inl ⟨List.mem_cons_self _ _, hmem⟩
          · intro _
            exact Or.inr (Or.inr trivial)
        · have hmem' : q ∈ addNoDup ls.pd p ↔ q ∈ ls.pd := by
            rw [mem_addNoDup]
            simp [hqp]
          simp only [hkeys, hmem']
          constructor
          · rintro (⟨h, h'⟩ | (h | h))
            · exact Or.inl ⟨List.mem_cons_of_mem _ h, h'⟩
            · exact Or.inr h
            · exact absurd h hqp
          · rintro (⟨h, h'⟩ | h)
            · rcases List.mem_cons.mp h with rfl | h
              · exact absurd rfl hqp
              · exact Or.inl ⟨h, h'⟩
            · exact Or.inr (Or.inl h)

theorem main_run_resumed {ρ : Type u} (api : Nat → Option (ApiResp ρ))
    (st : HState ρ) (startedAt exportedAt : String) (n : Nat)
    (hq : st.query = build_query) (htp : st.total_pages = some n) :
    main_run api (some st) startedAt exportedAt =
      (if (harvestLoop api (List.range' 1 n)
            ⟨st, st.pages_done.foldl addNoDup [], n, [], []⟩).1 then
        ⟨true,
          (harvestLoop api (List.range' 1 n)
            ⟨st, st.pages_done.foldl addNoDup [], n, [], []⟩).2.st,
          (harvestLoop api (List.range' 1 n)
            ⟨st, st.pages_done.foldl addNoDup [], n, [], []⟩).2.req,
          (harvestLoop api (List.range' 1 n)
            ⟨st, st.pages_done.foldl addNoDup [], n, [], []⟩).2.saved,
          some (consolidate_to_final
            (harvestLoop api (List.range' 1 n)
              ⟨st, st.pages_done.foldl addNoDup [], n, [], []⟩).2.st exportedAt)⟩
      else
        ⟨false,
          (harvestLoop api (List.range' 1 n)
            ⟨st, st.pages_done.foldl addNoDup [], n, [], []⟩).2.st,
          (harvestLoop api (List.range' 1 n)
            ⟨st, st.pages_done.foldl addNoDup [], n, [], []⟩).2.req,
          (harvestLoop api (List.range' 1 n)
            ⟨st, st.pages_done.foldl addNoDup [], n, [], []⟩).2.saved,
          none⟩) := by
  simp only [main_run, hq, htp, if_pos trivial, reduceIte]

theorem main_run_fresh {ρ : Type u} (api : Nat → Option (ApiResp ρ))
    (startedAt exportedAt : String) (n : Nat) (r1 : ApiResp ρ)
    (hap1 : api 1 = some r1) (htp1 : r1.total_pages = some n) (hn : 0 < n) :
    main_run api none startedAt exportedAt =
      (if (harvestLoop api (List.range' 1 n)
            ⟨⟨startedAt, build_query, [1], some n, [(1, extract_results r1)]⟩,
              [1], n, [1],
              [initState ρ build_query startedAt,
                ⟨startedAt, build_query, [1], some n, [(1, extract_results r1)]⟩]⟩).1 then
        ⟨true,
          (harvestLoop api (List.range' 1 n)
            ⟨⟨startedAt, build_query, [1], some n, [(1, extract_results r1)]⟩,
              [1], n, [1],
              [initState ρ build_query startedAt,
                ⟨startedAt, build_query, [1], some n, [(1, extract_results r1)]⟩]⟩).2.st,
          (harvestLoop api (List.range' 1 n)
            ⟨⟨startedAt, build_query, [1], some n, [(1, extract_results r1)]⟩,
              [1], n, [1],
              [initState ρ build_query startedAt,
                ⟨startedAt, build_query, [1], some n, [(1, extract_results r1)]⟩]⟩).2.req,
          (harvestLoop api (List.range' 1 n)
            ⟨⟨startedAt, build_query, [1], some n, [(1, extract_results r1)]⟩,
              [1], n, [1],
              [initState ρ build_query startedAt,
                ⟨startedAt, build_query, [1], some n, [(1, extract_results r1)]⟩]⟩).2.saved,
          some (consolidate_to_final
            (harvestLoop api (List.range' 1 n)
              ⟨⟨startedAt, build_query, [1], some n, [(1, extract_results r1)]⟩,
                [1], n, [1],
                [initState ρ build_query startedAt,
                  ⟨startedAt, build_query, [1], some n,
                    [(1, extract_results r1)]⟩]⟩).2.st exportedAt)⟩
      else
        ⟨false,
          (harvestLoop api (List.range' 1 n)
            ⟨⟨startedAt, build_query, [1], some n, [(1, extract_results r1)]⟩,
              [1], n, [1],
              [initState ρ build_query startedAt,
                ⟨startedAt, build_query, [1], some n, [(1, extract_results r1)]⟩]⟩).2.st,
          (harvestLoop api (List.range' 1 n)
            ⟨⟨startedAt, build_query, [1], some n, [(1, extract_results r1)]⟩,
              [1], n, [1],
              [initState ρ build_query startedAt,
                ⟨startedAt, build_query, [1], some n, [(1, extract_results r1)]⟩]⟩).2.req,
          (harvestLoop api (List.range' 1 n)
            ⟨⟨startedAt, build_query, [1], some n, [(1, extract_results r1)]⟩,
              [1], n, [1],
              [initState ρ build_query startedAt,
                ⟨startedAt, build_query, [1], some n, [(1, extract_results r1)]⟩]⟩).2.saved,
          none⟩) := by
  have h1 : orNat (some n) 1 = n := orNat_some_pos n 1 hn
  simp only [main_run, hap1, htp1, h1, initState]
  rfl

/-- C2: with `total_pages` known and `pages_done` a strict subset of
`{1..n}`, resuming requests exactly the missing pages, reuses every
stored page verbatim, and consolidates to the same final output an
uninterrupted run over the same responses produces. -/
theorem C2_thm {ρ : Type u} (api : Nat → Option (ApiResp ρ)) (resp : Nat → ApiResp ρ)
    (n : Nat) (st : HState ρ) (startedAt exportedAt : String)
    (hq : st.query = build_query)
    (hmeta : st.meta = startedAt)
    (htp : st.total_pages = some n)
    (hn : 0 < n)
    (hapi : ∀ p, 1 ≤ p → p ≤ n →
      api p = some (resp p) ∧ (resp p).total_pages = some n)
    (hsub : ∀ p ∈ st.pages_done, 1 ≤ p ∧ p ≤ n)
    (hstrict : ∃ q, 1 ≤ q ∧ q ≤ n ∧ q ∉ st.pages_done)
    (hdom : ∀ p, p ∈ st.results_by_page.map Prod.fst ↔ p ∈ st.pages_done)
    (hval : ∀ p ∈ st.pages_done,
      List.lookup p st.results_by_page = some (extract_results (resp p))) :
    (main_run api (some st) startedAt exportedAt).ok = true ∧
    (main_run api (some st) startedAt exportedAt).requested
      = (List.range' 1 n).filter (fun p => p ∉ st.pages_done) ∧
    (∀ p ∈ st.pages_done,
      List.lookup p (main_run api (some st) startedAt exportedAt).state.results_by_page
        = List.lookup p st.results_by_page) ∧
    (main_run api (some st) startedAt exportedAt).final ≠ none ∧
    (main_run api (some st) startedAt exportedAt).final
      = (main_run api none startedAt exportedAt).final := by
  have hR := main_run_resumed api st startedAt exportedAt n hq htp
  have hpd0mem : ∀ q, q ∈ st.pages_done.foldl addNoDup [] ↔ q ∈ st.pages_done :=
    fun q => by rw [mem_foldl_addNoDup]; simp
  have hLnd : (List.range' 1 n).Nodup := List.nodup_range' 1 n
  have hLb : ∀ p ∈ List.range' 1 n, 1 ≤ p ∧ p ≤ n := fun p hp => by
    rw [List.mem_range'_1] at hp
    omega
  obtain ⟨hok, htpF, htotF, hqF, hmF, hreqF, hpdF, hlookF, hkeysF⟩ :=
    harvestLoop_ok api resp n hn hapi (List.range' 1 n)
      ⟨st, st.pages_done.foldl addNoDup [], n, [], []⟩ hLnd hLb rfl htp
  obtain ⟨hap1, htp1⟩ := hapi 1 (Nat.le_refl 1) hn
  have hFr := main_run_fresh api startedAt exportedAt n (resp 1) hap1 htp1 hn
  obtain ⟨gok, gtpF, gtotF, gqF, gmF, greqF, gpdF, glookF, gkeysF⟩ :=
    harvestLoop_ok api resp n hn hapi (List.range' 1 n)
      ⟨⟨startedAt, build_query, [1], some n, [(1, extract_results (resp 1))]⟩,
        [1], n, [1],
        [initState ρ build_query startedAt,
          ⟨startedAt, build_query, [1], some n, [(1, extract_results (resp 1))]⟩]⟩
      hLnd hLb rfl rfl
  refine ⟨?_, ?_, ?_, ?_, ?_⟩
  · rw [hR, if_pos hok]
  · rw [hR, if_pos hok]
    show (harvestLoop api (List.range' 1 n)
      ⟨st, st.pages_done.foldl addNoDup [], n, [], []⟩).2.req = _
    rw [hreqF, List.nil_append]
    apply List.filter_congr
    intro x _
    simp [hpd0mem]
  · intro p hp
    rw [hR, if_pos hok]
    show List.lookup p (harvestLoop api (List.range' 1 n)
      ⟨st, st.pages_done.foldl addNoDup [], n, [], []⟩).2.st.results_by_page = _
    rw [hlookF p, if_neg]
    rintro ⟨_, hnp⟩
    exact hnp ((hpd0mem p).mpr hp)
  · rw [hR, if_pos hok]
    simp
  · rw [hR, if_pos hok, hFr, if_pos gok]
    show some _ = some _
    congr 1
    set stR := (harvestLoop api (List.range' 1 n)
      ⟨st, st.pages_done.foldl addNoDup [], n, [], []⟩).2.st with hstR
    set stF := (harvestLoop api (List.range' 1 n)
      ⟨⟨startedAt, build_query, [1], some n, [(1, extract_results (resp 1))]⟩,
        [1], n, [1],
        [initState ρ build_query startedAt,
          ⟨startedAt, build_query, [1], some n, [(1, extract_results (resp 1))]⟩]⟩).2.st
      with hstF
    have hkR : ∀ q, q ∈ stR.results_by_page.map Prod.fst ↔ 1 ≤ q ∧ q ≤ n := by
      intro q
      rw [hkeysF q]
      constructor
      · rintro (⟨hmr, _⟩ | hk)
        · exact hLb q hmr
        · exact hsub q ((hdom q).mp hk)
      · intro hb
        by_cases hqpd : q ∈ st.pages_done.foldl addNoDup []
        · exact Or.inr ((hdom q).mpr ((hpd0mem q).mp hqpd))
        · exact Or.inl ⟨List.mem_range'_1.mpr ⟨hb.1, by omega⟩, hqpd⟩
    have hkF : ∀ q, q ∈ stF.results_by_page.map Prod.fst ↔ 1 ≤ q ∧ q ≤ n := by
      intro q
      rw [gkeysF q]
      constructor
      · rintro (⟨hmr, _⟩ | hk)
        · exact hLb q hmr
        · simp only [List.map_cons, List.map_nil, List.mem_singleton] at hk
          omega
      · intro hb
        by_cases hq1 : q = 1
        · subst hq1
          exact Or.inr (by simp)
        · refine Or.inl ⟨List.mem_range'_1.mpr ⟨hb.1, by omega⟩, ?_⟩
          simp [hq1]
    have hlR : ∀ q, List.lookup q stR.results_by_page
        = if 1 ≤ q ∧ q ≤ n then some (extract_results (resp q)) else none := by
      intro q
      rw [hlookF q]
      by_cases hb : 1 ≤ q ∧ q ≤ n
      · rw [if_pos hb]
        by_cases hqpd : q ∈ st.pages_done.foldl addNoDup []
        · rw [if_neg (fun hc => hc.2 hqpd)]
          exact hval q ((hpd0mem q).mp hqpd)
        · rw [if_pos ⟨List.mem_range'_1.mpr ⟨hb.1, by omega⟩, hqpd⟩]
      · rw [if_neg hb, if_neg (fun hc => hb (hLb q hc.1))]
        cases hlq : List.lookup q st.results_by_page with
        | none => rfl
        | some v =>
          exfalso
          have : q ∈ st.results_by_page.map Prod.fst := by
            rw [← lookup_isSome_iff]
            rw [hlq]
            rfl
          exact hb (hsub q ((hdom q).mp this))
    have hlF : ∀ q, List.lookup q stF.results_by_page
        = if 1 ≤ q ∧ q ≤ n then some (extract_results (resp q)) else none := by
      intro q
      rw [glookF q]
      by_cases hb : 1 ≤ q ∧ q ≤ n
      · rw [if_pos hb]
        by_cases hq1 : q = 1
        · subst hq1
          rw [if_neg (by simp)]
          rfl
        · rw [if_pos ⟨List.mem_range'_1.mpr ⟨hb.1, by omega⟩, by simp [hq1]⟩]
      · rw [if_neg hb, if_neg (fun hc => hb (hLb q hc.1))]
        have hq1 : q ≠ 1 := fun hc => hb (by subst hc; exact ⟨Nat.le_refl 1, hn⟩)
        show List.lookup q [(1, extract_results (resp 1))] = none
        simp [List.lookup, beq_false_of_ne hq1]
    have hlookAll : ∀ q, List.lookup q stR.results_by_page
        = List.lookup q stF.results_by_page := fun q => by rw [hlR, hlF]
    have hpages : sortedNat (stR.results_by_page.map Prod.fst).dedup
        = sortedNat (stF.results_by_page.map Prod.fst).dedup := by
      apply sortedNat_eq_of_mem_iff _ _ (List.nodup_dedup _) (List.nodup_dedup _)
      intro q
      rw [List.mem_dedup, List.mem_dedup, hkR, hkF]
    have hcomb : ((sortedNat (stR.results_by_page.map Prod.fst).dedup).map
          (fun p => (List.lookup p stR.results_by_page).getD [])).flatten
        = ((sortedNat (stF.results_by_page.map Prod.fst).dedup).map
          (fun p => (List.lookup p stF.results_by_page).getD [])).flatten := by
      rw [hpages]
      congr 1
      exact List.map_congr_left fun q _ => by rw [hlookAll]
    show consolidate_to_final stR exportedAt = consolidate_to_final stF exportedAt
    simp only [consolidate_to_final, FinalOut.mk.injEq]
    refine ⟨?_, ?_, ?_, hpages, ?_, ?_, trivial⟩
    · rw [hmF, gmF]
      exact hmeta
    · rw [hqF, gqF]
      exact hq
    · rw [htotF, gtotF]
    · rw [hcomb]
    · exact hcomb

/-- C2 witness: resuming a two-page harvest with page 1 done requests
only page 2 and consolidates identically to an uninterrupted run. -/
theorem C2_witness :
    (main_run (fun p => some (⟨some 2, some [p * 10], none⟩ : ApiResp Nat))
        (some ⟨"T0", build_query, [1], some 2, [(1, [10])]⟩) "T0" "T1").requested
      = [2] ∧
    (main_run (fun p => some (⟨some 2, some [p * 10], none⟩ : ApiResp Nat))
        (some ⟨"T0", build_query, [1], some 2, [(1, [10])]⟩) "T0" "T1").final
      = (main_run (fun p => some (⟨some 2, some [p * 10], none⟩ : ApiResp Nat))
          none "T0" "T1").final := by
  have h := C2_thm (fun p => some (⟨some 2, some [p * 10], none⟩ : ApiResp Nat))
    (fun p => (⟨some 2, some [p * 10], none⟩ : ApiResp Nat)) 2
    ⟨"T0", build_query, [1], some 2, [(1, [10])]⟩ "T0" "T1"
    rfl rfl rfl (by decide)
    (fun p _ _ => ⟨rfl, rfl⟩)
    (by intro p hp; simp at hp; omega)
    ⟨2, by decide⟩
    (fun p => by simp)
    (by
      intro p hp
      simp at hp
      subst hp
      rfl)
  refine ⟨?_, h.2.2.2.2⟩
  rw [h.2.1]
  decide

theorem harvestLoop_chain {ρ : Type u} (api : Nat → Option (ApiResp ρ))
    (pre : List (HState ρ)) :
    ∀ (L : List Nat) (ls : LoopState ρ),
      (∀ q, q ∈ ls.st.results_by_page.map Prod.fst → q ∈ ls.pd) →
      (∀ q, q ∈ ls.st.pages_done ↔ q ∈ ls.pd) →
      List.Chain' StExt (pre ++ ls.saved ++ [ls.st]) →
      List.Chain' StExt (pre ++ (harvestLoop api L ls).2.saved
        ++ [(harvestLoop api L ls).2.st]) := by
  intro L
  induction L with
  | nil => intro ls _ _ h; exact h
  | cons p rest ih =>
    intro ls hkeys hpages hchain
    by_cases hmem : p ∈ ls.pd
    · have hloop : harvestLoop api (p :: rest) ls = harvestLoop api rest ls := by
        show (if p ∈ ls.pd then _ else _) = _
        rw [if_pos hmem]
      rw [hloop]
      exact ih ls hkeys hpages hchain
    · match hap : api p with
      | none =>
        have hloop : harvestLoop api (p :: rest) ls
            = (false, { ls with req := ls.req ++ [p] }) := by
          show (if p ∈ ls.pd then _ else _) = _
          rw [if_neg hmem, hap]
        rw [hloop]
        exact hchain
      | some data =>
        have hloop : harvestLoop api (p :: rest) ls = harvestLoop api rest
            ⟨{ ls.st with
                total_pages := some (orNat data.total_pages ls.tp),
                results_by_page :=
                  dictSet ls.st.results_by_page p (extract_results data),
                pages_done := sortedNat (addNoDup ls.pd p) },
              addNoDup ls.pd p, orNat data.total_pages ls.tp, ls.req ++ [p],
              ls.saved ++ [{ ls.st with
                total_pages := some (orNat data.total_pages ls.tp),
                results_by_page :=
                  dictSet ls.st.results_by_page p (extract_results data),
                pages_done := sortedNat (addNoDup ls.pd p) }]⟩ := by
          show (if p ∈ ls.pd then _ else _) = _
          rw [if_neg hmem, hap]
        rw [hloop]
        set st' : HState ρ := { ls.st with
          total_pages := some (orNat data.total_pages ls.tp),
          results_by_page := dictSet ls.st.results_by_page p (extract_results data),
          pages_done := sortedNat (addNoDup ls.pd p) } with hst'
        have hext : StExt ls.st st' := by
          constructor
          · intro q hq
            rw [hst']
            show q ∈ sortedNat (addNoDup ls.pd p)
            rw [mem_sortedNat, mem_addNoDup]
            exact Or.inl ((hpages q).mp hq)
          · intro q v hv
            rw [hst']
            show List.lookup q (dictSet ls.st.results_by_page p _) = some v
            have hqp : q ≠ p := by
              intro hc
              subst hc
              apply hmem
              apply hkeys
              rw [← lookup_isSome_iff, hv]
              rfl
            rw [lookup_dictSet_ne _ _ _ _ hqp]
            exact hv
        refine ih ⟨st', addNoDup ls.pd p, orNat data.total_pages ls.tp,
          ls.req ++ [p], ls.saved ++ [st']⟩ ?_ ?_ ?_
        · intro q hq
          show q ∈ addNoDup ls.pd p
          rw [hst'] at hq
          rcases (keys_dictSet _ _ _ _).mp hq with hq | hq
          · rw [mem_addNoDup]
            exact Or.inl (hkeys q hq)
          · rw [mem_addNoDup]
            exact Or.inr hq
        · intro q
          show q ∈ sortedNat (addNoDup ls.pd p) ↔ q ∈ addNoDup ls.pd p
          exact mem_sortedNat _ q
        · show List.Chain' StExt (pre ++ (ls.saved ++ [st']) ++ [st'])
          have h1 : pre ++ (ls.saved ++ [st']) ++ [st']
              = ((pre ++ ls.saved) ++ [st']) ++ [st'] := by
            simp [List.append_assoc]
          have h2 : pre ++ ls.saved ++ [ls.st] = (pre ++ ls.saved) ++ [ls.st] := by
            simp [List.append_assoc]
          rw [h1]
          exact @chain'_snoc_extend (HState ρ) StExt
            (@fun _ _ _ ha hb => StExt_trans ha hb) StExt_refl
            (pre ++ ls.saved) ls.st st' (h2 ▸ hchain) hext

theorem harvestLoop_saved_inv {ρ : Type u} (api : Nat → Option (ApiResp ρ))
    (n : Nat) (hn : 0 < n)
    (hcons : ∀ p r, api p = some r → r.total_pages = some n) :
    ∀ (L : List Nat) (ls : LoopState ρ),
      (∀ p ∈ L, 1 ≤ p ∧ p ≤ n) → (∀ p ∈ ls.pd, 1 ≤ p ∧ p ≤ n) →
      ∀ s ∈ (harvestLoop api L ls).2.saved, s ∈ ls.saved ∨
        (s.total_pages = some n ∧ ∀ p ∈ s.pages_done, 1 ≤ p ∧ p ≤ n) := by
  intro L
  induction L with
  | nil => intro ls _ _ s hs; exact Or.inl hs
  | cons p rest ih =>
    intro ls hLb hpd s hs
    have hLb' : ∀ q ∈ rest, 1 ≤ q ∧ q ≤ n := fun q hq => hLb q (List.mem_cons_of_mem _ hq)
    by_cases hmem : p ∈ ls.pd
    · have hloop : harvestLoop api (p :: rest) ls = harvestLoop api rest ls := by
        show (if p ∈ ls.pd then _ else _) = _
        rw [if_pos hmem]
      rw [hloop] at hs
      exact ih ls hLb' hpd s hs
    · rw [show harvestLoop api (p :: rest) ls = (if p ∈ ls.pd then harvestLoop api rest ls
        else match api p with
          | none => (false, { ls with req := ls.req ++ [p] })
          | some data => harvestLoop api rest
            ⟨{ ls.st with
                total_pages := some (orNat data.total_pages ls.tp),
                results_by_page :=
                  dictSet ls.st.results_by_page p (extract_results data),
                pages_done := sortedNat (addNoDup ls.pd p) },
              addNoDup ls.pd p, orNat data.total_pages ls.tp, ls.req ++ [p],
              ls.saved ++ [{ ls.st with
                total_pages := some (orNat data.total_pages ls.tp),
                results_by_page :=
                  dictSet ls.st.results_by_page p (extract_results data),
                pages_done := sortedNat (addNoDup ls.pd p) }]⟩) from rfl] at hs
      rw [if_neg hmem] at hs
      match hap : api p with
      | none =>
        rw [hap] at hs
        exact Or.inl hs
      | some data =>
        rw [hap] at hs
        have htp' : orNat data.total_pages ls.tp = n := by
          rw [hcons p data hap]
          exact orNat_some_pos n ls.tp hn
        have hpd' : ∀ q ∈ addNoDup ls.pd p, 1 ≤ q ∧ q ≤ n := by
          intro q hq
          rcases (mem_addNoDup _ _ _).mp hq with hq | rfl
          · exact hpd q hq
          · exact hLb q (List.mem_cons_self _ _)
        have hst'good : ({ ls.st with
            total_pages := some (orNat data.total_pages ls.tp),
            results_by_page := dictSet ls.st.results_by_page p (extract_results data),
            pages_done := sortedNat (addNoDup ls.pd p) } : HState ρ).total_pages = some n ∧
            ∀ q ∈ ({ ls.st with
              total_pages := some (orNat data.total_pages ls.tp),
              results_by_page := dictSet ls.st.results_by_page p (extract_results data),
              pages_done := sortedNat (addNoDup ls.pd p) } : HState ρ).pages_done,
              1 ≤ q ∧ q ≤ n := by
          refine ⟨by rw [htp'], ?_⟩
          intro q hq
          rw [show ({ ls.st with
            total_pages := some (orNat data.total_pages ls.tp),
            results_by_page := dictSet ls.st.results_by_page p (extract_results data),
            pages_done := sortedNat (addNoDup ls.pd p) } : HState ρ).pages_done
              = sortedNat (addNoDup ls.pd p) from rfl, mem_sortedNat] at hq
          exact hpd' q hq
        rcases ih _ hLb' hpd' s hs with hsin | hgood
        · rcases List.mem_append.mp hsin with hsin | hsin
          · exact Or.inl hsin
          · simp only [List.mem_singleton] at hsin
            subst hsin
            exact Or.inr hst'good
        · exact Or.inr hgood

theorem chain_presaved_of_if {ρ : Type u} (pre : List (HState ρ)) (c : Prop)
    [Decidable c] (st' : HState ρ) (req : List Nat) (saved : List (HState ρ))
    (fin : Option (FinalOut ρ)) (h : List.Chain' StExt (pre ++ saved)) :
    List.Chain' StExt (pre ++ (if c then (⟨true, st', req, saved, fin⟩ : RunResult ρ)
      else ⟨false, st', req, saved, none⟩).saved) := by
  by_cases hc : c
  · rw [if_pos hc]
    exact h
  · rw [if_neg hc]
    exact h

theorem main_run_chain {ρ : Type u} (api : Nat → Option (ApiResp ρ))
    (loaded : Option (HState ρ)) (sA eA : String)
    (hwf : ∀ st, loaded = some st →
      ∀ q, q ∈ st.results_by_page.map Prod.fst → q ∈ st.pages_done) :
    List.Chain' StExt ((match loaded with
      | some st => if st.query = build_query then [st] else []
      | none => ([] : List (HState ρ))) ++ (main_run api loaded sA eA).saved) := by
  have initExt : ∀ s : HState ρ, StExt (initState ρ build_query sA) s := by
    intro s
    constructor
    · intro p hp
      simp [initState] at hp
    · intro q v hv
      simp [initState, List.lookup] at hv
  have fresh_chain : List.Chain' StExt ((main_run api none sA eA).saved) := by
    match hap : api 1 with
    | none =>
      have heq : main_run api none sA eA
          = ⟨false, initState ρ build_query sA, [1],
              [initState ρ build_query sA], none⟩ := by
        simp only [main_run, hap, initState, List.foldl_nil]
        rw [if_neg (List.not_mem_nil 1)]
      rw [heq]
      simp
    | some first =>
      simp only [main_run, hap, initState, List.foldl_nil, List.singleton_append]
      rw [if_neg (List.not_mem_nil 1)]
      have hc := harvestLoop_chain api []
        (List.range' 1 (orNat first.total_pages 1))
        ⟨⟨sA, build_query, sortedNat (addNoDup [] 1), some (orNat first.total_pages 1),
            dictSet [] 1 (extract_results first)⟩,
          addNoDup [] 1, orNat first.total_pages 1, [1],
          [⟨sA, build_query, [], none, []⟩,
            ⟨sA, build_query, sortedNat (addNoDup [] 1), some (orNat first.total_pages 1),
              dictSet [] 1 (extract_results first)⟩]⟩
        (by
          intro q hq
          rcases (keys_dictSet _ _ _ _).mp hq with hq | hq
          · simp at hq
          · rw [mem_addNoDup]
            exact Or.inr hq)
        (fun q => mem_sortedNat _ q)
        (by
          refine List.chain'_cons.mpr ⟨?_, ?_⟩
          · exact initExt _
          · exact List.chain'_pair.mpr (StExt_refl _))
      exact chain_presaved_of_if [] _ _ _ _ _
        (by simpa using (List.chain'_append.mp (by simpa using hc)).1)
  cases loaded with
  | none => exact fresh_chain
  | some st =>
    show List.Chain' StExt ((if st.query = build_query then [st] else [])
      ++ (main_run api (some st) sA eA).saved)
    by_cases hq : st.query = build_query
    · rw [if_pos hq]
      have hkeys : ∀ q, q ∈ st.results_by_page.map Prod.fst → q ∈ st.pages_done :=
        hwf st rfl
      have hpd0 : ∀ q, q ∈ st.pages_done.foldl addNoDup [] ↔ q ∈ st.pages_done :=
        fun q => by rw [mem_foldl_addNoDup]; simp
      match htp : st.total_pages with
      | some tp0 =>
        rw [main_run_resumed api st sA eA tp0 hq htp]
        have hc := harvestLoop_chain api [st] (List.range' 1 tp0)
          ⟨st, st.pages_done.foldl addNoDup [], tp0, [], []⟩
          (fun q hqk => (hpd0 q).mpr (hkeys q hqk))
          (fun q => (hpd0 q).symm)
          (by
            show List.Chain' StExt ([st] ++ [] ++ [st])
            simp only [List.append_nil, List.singleton_append]
            exact List.chain'_pair.mpr (StExt_refl st))
        exact chain_presaved_of_if [st] _ _ _ _ _ ((List.chain'_append.mp hc).1)
      | none =>
        by_cases h1 : 1 ∈ st.pages_done.foldl addNoDup []
        · simp only [main_run, hq, if_pos trivial, reduceIte, htp]
          rw [if_pos h1]
          have hc := harvestLoop_chain api [st] (List.range' 1 (orNat none 1))
            ⟨st, st.pages_done.foldl addNoDup [], orNat none 1, [], []⟩
            (fun q hqk => (hpd0 q).mpr (hkeys q hqk))
            (fun q => (hpd0 q).symm)
            (by
              show List.Chain' StExt ([st] ++ [] ++ [st])
              simp only [List.append_nil, List.singleton_append]
              exact List.chain'_pair.mpr (StExt_refl st))
          exact chain_presaved_of_if [st] _ _ _ _ _ ((List.chain'_append.mp hc).1)
        · match hap : api 1 with
          | none =>
            simp only [main_run, hq, if_pos trivial, reduceIte, htp]
            rw [if_neg h1, hap]
            simp
          | some first =>
            simp only [main_run, hq, if_pos trivial, reduceIte, htp,
              List.nil_append]
            rw [if_neg h1, hap]
            have hext1 : StExt st ⟨st.meta, build_query,
                sortedNat (addNoDup (st.pages_done.foldl addNoDup []) 1),
                some (orNat first.total_pages 1),
                dictSet st.results_by_page 1 (extract_results first)⟩ := by
              constructor
              · intro p hp
                show p ∈ sortedNat (addNoDup (st.pages_done.foldl addNoDup []) 1)
                rw [mem_sortedNat, mem_addNoDup]
                exact Or.inl ((hpd0 p).mpr hp)
              · intro q v hv
                show List.lookup q
                  (dictSet st.results_by_page 1 (extract_results first)) = some v
                have hq1 : q ≠ 1 := by
                  intro hc
                  subst hc
                  apply h1
                  apply (hpd0 1).mpr
                  apply hkeys
                  rw [← lookup_isSome_iff, hv]
                  rfl
                rw [lookup_dictSet_ne _ _ _ _ hq1]
                exact hv
            have hc := harvestLoop_chain api [st]
              (List.range' 1 (orNat first.total_pages 1))
              ⟨⟨st.meta, build_query,
                  sortedNat (addNoDup (st.pages_done.foldl addNoDup []) 1),
                  some (orNat first.total_pages 1),
                  dictSet st.results_by_page 1 (extract_results first)⟩,
                addNoDup (st.pages_done.foldl addNoDup []) 1,
                orNat first.total_pages 1, [1],
                [⟨st.meta, build_query,
                  sortedNat (addNoDup (st.pages_done.foldl addNoDup []) 1),
                  some (orNat first.total_pages 1),
                  dictSet st.results_by_page 1 (extract_results first)⟩]⟩
              (by
                intro q hqk
                rcases (keys_dictSet _ _ _ _).mp hqk with hqk | hqk
                · rw [mem_addNoDup]
                  exact Or.inl ((hpd0 q).mpr (hkeys q hqk))
                · rw [mem_addNoDup]
                  exact Or.inr hqk)
              (fun q => mem_sortedNat _ q)
              (by
                refine List.chain'_cons.mpr ⟨hext1, ?_⟩
                exact List.chain'_pair.mpr (StExt_refl _))
            exact chain_presaved_of_if [st] _ _ _ _ _ ((List.chain'_append.mp hc).1)
    · rw [if_neg hq]
      have heq : main_run api (some st) sA eA = main_run api none sA eA := by
        simp only [main_run, hq, reduceIte]
      rw [List.nil_append, heq]
      exact fresh_chain

/-- C4 (counterexample): the invariant `pages_done ⊆ range 1 total_pages once
total_pages is known` fails for a reachable saved checkpoint.  Because the
page loop overwrites `total_pages` from every response, an API whose page 2
reports `total_pages = 1` yields a saved checkpoint with
`total_pages = some 1` but `2 ∈ pages_done`. -/
theorem C4_counterexample :
    ∃ s ∈ (main_run c4api none "T0" "T1").saved,
      s.total_pages = some 1 ∧ 2 ∈ s.pages_done := by
  decide

/-- C4 (amended): the checkpoints a run saves, prefixed by the loaded
checkpoint when its query matches the current one, form a chain under
`StExt`: `pages_done` only grows and stored page results are never
removed (monotonic progress).  The bound `pages_done ⊆ range 1..n once
total_pages is known` holds for every checkpoint saved by a fresh run
provided every page response reports the same positive
`total_pages = n`; it is not an unconditional invariant
(`C4_counterexample`). -/
theorem C4_thm {ρ : Type u} (api : Nat → Option (ApiResp ρ))
    (loaded : Option (HState ρ)) (sA eA : String)
    (hwf : ∀ st, loaded = some st →
      ∀ q, q ∈ st.results_by_page.map Prod.fst → q ∈ st.pages_done) :
    List.Chain' StExt ((match loaded with
      | some st => if st.query = build_query then [st] else []
      | none => ([] : List (HState ρ))) ++ (main_run api loaded sA eA).saved)
    ∧ (∀ n : Nat, 0 < n → (∀ p r, api p = some r → r.total_pages = some n) →
        loaded = none →
        ∀ s ∈ (main_run api loaded sA eA).saved, ∀ t, s.total_pages = some t →
          t = n ∧ ∀ p ∈ s.pages_done, 1 ≤ p ∧ p ≤ t) := by
  constructor
  · exact main_run_chain api loaded sA eA hwf
  · intro n hn hcons hnone
    subst hnone
    match hap : api 1 with
    | none =>
      have heq : main_run api none sA eA
          = ⟨false, initState ρ build_query sA, [1],
              [initState ρ build_query sA], none⟩ := by
        simp only [main_run, hap, initState, List.foldl_nil]
        rw [if_neg (List.not_mem_nil 1)]
      rw [heq]
      intro s hs t ht
      simp only [List.mem_singleton] at hs
      subst hs
      exact absurd ht (by simp [initState])
    | some first =>
      have htp1 : first.total_pages = some n := hcons 1 first hap
      rw [main_run_fresh api sA eA n first hap htp1 hn]
      have hinv := harvestLoop_saved_inv api n hn hcons (List.range' 1 n)
        ⟨⟨sA, build_query, [1], some n, [(1, extract_results first)]⟩,
          [1], n, [1],
          [initState ρ build_query sA,
            ⟨sA, build_query, [1], some n, [(1, extract_results first)]⟩]⟩
        (by
          intro p hp
          rw [List.mem_range'_1] at hp
          exact ⟨hp.1, by omega⟩)
        (by
          intro p hp
          simp only [List.mem_singleton] at hp
          subst hp
          exact ⟨le_refl 1, hn⟩)
      have hmain : ∀ s ∈ (harvestLoop api (List.range' 1 n)
          (⟨⟨sA, build_query, [1], some n, [(1, extract_results first)]⟩,
            [1], n, [1],
            [initState ρ build_query sA,
              ⟨sA, build_query, [1], some n,
                [(1, extract_results first)]⟩]⟩ : LoopState ρ)).2.saved,
          ∀ t, s.total_pages = some t →
            t = n ∧ ∀ p ∈ s.pages_done, 1 ≤ p ∧ p ≤ t := by
        intro s hs t ht
        rcases hinv s hs with hsin | ⟨hstp, hbnd⟩
        · rcases List.mem_cons.mp hsin with rfl | hsin
          · exact absurd ht (by simp [initState])
          · simp only [List.mem_singleton] at hsin
            subst hsin
            simp only at ht
            have htn : t = n := ((Option.some.injEq n t).mp ht).symm
            refine ⟨htn, ?_⟩
            intro p hp
            simp only [List.mem_singleton] at hp
            subst hp
            exact ⟨le_refl 1, htn ▸ hn⟩
        · have htn : t = n := by
            rw [hstp] at ht
            exact ((Option.some.injEq n t).mp ht).symm
          exact ⟨htn, fun p hp => ⟨(hbnd p hp).1, htn ▸ (hbnd p hp).2⟩⟩
      by_cases hok : (harvestLoop api (List.range' 1 n)
          (⟨⟨sA, build_query, [1], some n, [(1, extract_results first)]⟩,
            [1], n, [1],
            [initState ρ build_query sA,
              ⟨sA, build_query, [1], some n,
                [(1, extract_results first)]⟩]⟩ : LoopState ρ)).1 = true
      · rw [if_pos hok]
        exact hmain
      · rw [if_neg hok]
        exact hmain

/-- C4 (witness): on a concrete consistent API reporting two total pages
everywhere, a fresh run's saved checkpoints chain under `StExt` and every
saved checkpoint with known `total_pages` has its pages in range. -/
theorem C4_witness :
    List.Chain' StExt ((match (none : Option (HState Nat)) with
      | some st => if st.query = build_query then [st] else []
      | none => ([] : List (HState Nat))) ++ (main_run c4apiconst none "T0" "T1").saved)
    ∧ (∀ s ∈ (main_run c4apiconst none "T0" "T1").saved,
        ∀ t, s.total_pages = some t →
          t = 2 ∧ ∀ p ∈ s.pages_done, 1 ≤ p ∧ p ≤ t) := by
  have h := C4_thm c4apiconst none "T0" "T1" (fun st hc => nomatch hc)
  refine ⟨h.1, ?_⟩
  intro s hs t ht
  refine h.2 2 (by decide) ?_ rfl s hs t ht
  intro p r hr
  simp only [c4apiconst] at hr
  split at hr
  · cases hr
    rfl
  · cases hr

theorem digitChar_toNat (d : Nat) (hd : d < 10) : (digitChar d).toNat = 48 + d := by
  interval_cases d <;> rfl

theorem isDigitC_digitChar (d : Nat) (hd : d < 10) : isDigitC (digitChar d) = true := by
  interval_cases d <;> rfl

theorem digitsVal_append_one (l : List Char) (c : Char) :
    digitsVal (l ++ [c]) = digitsVal l * 10 + (c.toNat - 48) := by
  simp [digitsVal, List.foldl_append]

theorem natCharsCore_spec : ∀ (fuel n : Nat), n < fuel →
    natCharsCore fuel n ≠ [] ∧ (∀ c ∈ natCharsCore fuel n, isDigitC c = true) ∧
      digitsVal (natCharsCore fuel n) = n := by
  intro fuel
  induction fuel with
  | zero => intro n hn; omega
  | succ f ih =>
    intro n hn
    by_cases h10 : n < 10
    · have he : natCharsCore (f + 1) n = [digitChar n] := by
        show (if n < 10 then _ else _) = _
        rw [if_pos h10]
      rw [he]
      refine ⟨by simp, ?_, ?_⟩
      · intro c hc
        simp only [List.mem_singleton] at hc
        subst hc
        exact isDigitC_digitChar n h10
      · show digitsVal ([] ++ [digitChar n]) = n
        rw [digitsVal_append_one, digitChar_toNat n h10]
        simp [digitsVal]
    · have he : natCharsCore (f + 1) n
          = natCharsCore f (n / 10) ++ [digitChar (n % 10)] := by
        show (if n < 10 then _ else _) = _
        rw [if_neg h10]
      have hrec : n / 10 < f := by
        have := Nat.div_lt_self (by omega : 0 < n) (by omega : 1 < 10)
        omega
      obtain ⟨hne, hdig, hval⟩ := ih (n / 10) hrec
      rw [he]
      refine ⟨by simp, ?_, ?_⟩
      · intro c hc
        rcases List.mem_append.mp hc with hc | hc
        · exact hdig c hc
        · simp only [List.mem_singleton] at hc
          subst hc
          exact isDigitC_digitChar _ (Nat.mod_lt _ (by omega))
      · rw [digitsVal_append_one, hval, digitChar_toNat _ (Nat.mod_lt _ (by omega))]
        omega

theorem natChars_spec (n : Nat) :
    natChars n ≠ [] ∧ (∀ c ∈ natChars n, isDigitC c = true) ∧
      digitsVal (natChars n) = n :=
  natCharsCore_spec (n + 1) n (by omega)

theorem takeWhile_append_all (p : Char → Bool) :
    ∀ (l r : List Char), (∀ c ∈ l, p c = true) →
      (∀ c, r.head? = some c → p c = false) →
      (l ++ r).takeWhile p = l := by
  intro l
  induction l with
  | nil =>
    intro r _ hr
    cases r with
    | nil => rfl
    | cons c r' =>
      simp only [List.nil_append, List.takeWhile_cons, hr c rfl]
      rfl
  | cons c l' ih =>
    intro r hl hr
    simp only [List.cons_append, List.takeWhile_cons,
      hl c (List.mem_cons_self _ _)]
    rw [ih r (fun d hd => hl d (List.mem_cons_of_mem _ hd)) hr]
    simp

theorem dropWhile_append_all (p : Char → Bool) :
    ∀ (l r : List Char), (∀ c ∈ l, p c = true) →
      (∀ c, r.head? = some c → p c = false) →
      (l ++ r).dropWhile p = r := by
  intro l
  induction l with
  | nil =>
    intro r _ hr
    cases r with
    | nil => rfl
    | cons c r' =>
      simp only [List.nil_append, List.dropWhile_cons, hr c rfl]
      rfl
  | cons c l' ih =>
    intro r hl hr
    simp only [List.cons_append, List.dropWhile_cons,
      hl c (List.mem_cons_self _ _)]
    exact ih r (fun d hd => hl d (List.mem_cons_of_mem _ hd)) hr

theorem parseNatChars_roundtrip (n : Nat) (rest : List Char)
    (hrest : ∀ c, rest.head? = some c → isDigitC c = false) :
    parseNatChars (natChars n ++ rest) = some (n, rest) := by
  obtain ⟨hne, hdig, hval⟩ := natChars_spec n
  unfold parseNatChars
  rw [takeWhile_append_all isDigitC (natChars n) rest hdig hrest,
    dropWhile_append_all isDigitC (natChars n) rest hdig hrest]
  obtain ⟨c, l, hc⟩ : ∃ c l, natChars n = c :: l := by
    cases hnc : natChars n with
    | nil => exact absurd hnc hne
    | cons c l => exact ⟨c, l, rfl⟩
  rw [hc]
  show some (digitsVal (c :: l), rest) = some (n, rest)
  rw [← hc, hval]

theorem parseLit_self : ∀ (lit s : List Char), parseLit lit (lit ++ s) = some s := by
  intro lit
  induction lit with
  | nil => intro s; cases s <;> rfl
  | cons c l ih =>
    intro s
    show (if c = c then parseLit l (l ++ s) else none) = some s
    rw [if_pos rfl]
    exact ih s

theorem parseIntChars_roundtrip (i : Int) (rest : List Char)
    (hrest : ∀ c, rest.head? = some c → isDigitC c = false) :
    parseIntChars (intChars i ++ rest) = some (i, rest) := by
  by_cases hi : i < 0
  · have he : intChars i = '-' :: natChars i.natAbs := by
      unfold intChars
      rw [if_pos hi]
    rw [he]
    show (match parseNatChars (natChars i.natAbs ++ rest) with
      | some (n, r) => some (-(n : Int), r)
      | none => none) = some (i, rest)
    rw [parseNatChars_roundtrip _ _ hrest]
    show some (-(↑i.natAbs : Int), rest) = some (i, rest)
    have : -(↑i.natAbs : Int) = i := by omega
    rw [this]
  · have he : intChars i = natChars i.natAbs := by
      unfold intChars
      rw [if_neg hi]
    rw [he]
    obtain ⟨hne, hdig, _⟩ := natChars_spec i.natAbs
    obtain ⟨c, l, hc⟩ : ∃ c l, natChars i.natAbs = c :: l := by
      cases hnc : natChars i.natAbs with
      | nil => exact absurd hnc hne
      | cons c l => exact ⟨c, l, rfl⟩
    have hcd : c ≠ '-' := by
      have hd := hdig c (by rw [hc]; exact List.mem_cons_self _ _)
      intro hcc
      subst hcc
      exact absurd hd (by decide)
    rw [hc, List.cons_append, parseIntChars.eq_def]
    split
    · rename_i r heq
      injection heq with h1 _
      exact absurd h1 hcd
    · rename_i s hnotdash
      rw [show c :: (l ++ rest) = natChars i.natAbs ++ rest by rw [hc, List.cons_append],
        parseNatChars_roundtrip _ _ hrest]
      show some ((↑i.natAbs : Int), rest) = some (i, rest)
      have : (↑i.natAbs : Int) = i := by omega
      rw [this]

theorem jsonEscapeCharA_safe (c : Char) (h1 : 32 ≤ c.toNat) (h2 : c.toNat < 127)
    (h3 : c ≠ '"') (h4 : c ≠ '\\') : jsonEscapeCharA c = [c] := by
  have hn : c ≠ '\n' := fun hc => absurd (hc ▸ h1) (by decide)
  have ht : c ≠ '\t' := fun hc => absurd (hc ▸ h1) (by decide)
  have hr : c ≠ '\r' := fun hc => absurd (hc ▸ h1) (by decide)
  have h8 : ¬(c.toNat = 8) := by omega
  have h12 : ¬(c.toNat = 12) := by omega
  have h32 : ¬(c.toNat < 32) := by omega
  unfold jsonEscapeCharA
  rw [if_neg h3, if_neg h4, if_neg hn, if_neg ht, if_neg hr, if_neg h8,
    if_neg h12, if_neg h32, if_pos h2]

theorem safeChar_props (c : Char)
    (h : (32 ≤ c.toNat && c.toNat < 127 && (c ≠ '"' : Bool) && (c ≠ '\\' : Bool)) = true) :
    32 ≤ c.toNat ∧ c.toNat < 127 ∧ c ≠ '"' ∧ c ≠ '\\' := by
  simp only [Bool.and_eq_true, decide_eq_true_eq] at h
  exact ⟨h.1.1.1, h.1.1.2, h.1.2, h.2⟩

theorem flatten_escape_safe : ∀ l : List Char,
    (∀ c ∈ l, (32 ≤ c.toNat && c.toNat < 127
      && (c ≠ '"' : Bool) && (c ≠ '\\' : Bool)) = true) →
    (l.map jsonEscapeCharA).flatten = l := by
  intro l
  induction l with
  | nil => intro _; rfl
  | cons c l' ih =>
    intro hl
    obtain ⟨p1, p2, p3, p4⟩ := safeChar_props c (hl c (List.mem_cons_self _ _))
    simp only [List.map_cons, List.flatten_cons,
      jsonEscapeCharA_safe c p1 p2 p3 p4,
      ih (fun d hd => hl d (List.mem_cons_of_mem _ hd))]
    rfl

theorem jsonQuoteA_safe (s : String) (hs : jsonSafeName s = true) :
    jsonQuoteA s = '"' :: s.data ++ ['"'] := by
  unfold jsonQuoteA
  rw [flatten_escape_safe s.data (by
    intro c hc
    exact (List.all_eq_true.mp hs) c hc)]

theorem parseNameChars_roundtrip (s : String) (hs : jsonSafeName s = true)
    (rest : List Char) :
    parseNameChars (s.data ++ '"' :: rest) = some (s, rest) := by
  have hall : ∀ c ∈ s.data, (decide (c ≠ '"')) = true := by
    intro c hc
    obtain ⟨_, _, p3, _⟩ := safeChar_props c ((List.all_eq_true.mp hs) c hc)
    simp [p3]
  have hhead : ∀ c, ('"' :: rest).head? = some c → (decide (c ≠ '"')) = false := by
    intro c hc
    simp only [List.head?_cons, Option.some.injEq] at hc
    subst hc
    simp
  unfold parseNameChars
  rw [dropWhile_append_all _ _ _ hall hhead,
    takeWhile_append_all _ _ _ hall hhead]
  rfl

theorem parseItem_roundtrip (m : FileMeta) (hs : jsonSafeName m.name = true)
    (rest : List Char) :
    parseItem (encItem m ++ rest) = some (m, rest) := by
  have h1 : encItem m ++ rest
      = (lbrace :: "\"mtime\":".data)
        ++ (intChars m.mtime ++ (",\"name\":".data
          ++ (jsonQuoteA m.name ++ (",\"size\":".data
            ++ (natChars m.size ++ ([rbrace] ++ rest)))))) := by
    simp [encItem, List.append_assoc]
  have hd1 : ∀ c, ((",\"name\":".data
      ++ (jsonQuoteA m.name ++ (",\"size\":".data
        ++ (natChars m.size ++ ([rbrace] ++ rest))))).head? = some c) →
      isDigitC c = false := by
    intro c hc
    rw [show (",\"name\":".data : List Char) = ',' :: "\"name\":".data from by decide,
      List.cons_append] at hc
    simp only [List.head?_cons, Option.some.injEq] at hc
    subst hc
    decide
  have e2 := parseIntChars_roundtrip m.mtime
    (",\"name\":".data ++ (jsonQuoteA m.name ++ (",\"size\":".data
      ++ (natChars m.size ++ ([rbrace] ++ rest))))) hd1
  have e3 : parseLit (",\"name\":\"").data
      (",\"name\":".data ++ (jsonQuoteA m.name ++ (",\"size\":".data
        ++ (natChars m.size ++ ([rbrace] ++ rest)))))
      = some (m.name.data ++ ('"' :: (",\"size\":".data
        ++ (natChars m.size ++ ([rbrace] ++ rest))))) := by
    rw [show ",\"name\":".data ++ (jsonQuoteA m.name ++ (",\"size\":".data
        ++ (natChars m.size ++ ([rbrace] ++ rest))))
      = (",\"name\":\"").data ++ (m.name.data ++ ('"' :: (",\"size\":".data
        ++ (natChars m.size ++ ([rbrace] ++ rest))))) from by
      rw [jsonQuoteA_safe _ hs,
        show ((",\"name\":\"").data : List Char) = ",\"name\":".data ++ ['"'] from by decide]
      simp [List.append_assoc]]
    exact parseLit_self _ _
  have e4 := parseNameChars_roundtrip m.name hs
    (",\"size\":".data ++ (natChars m.size ++ ([rbrace] ++ rest)))
  have hd2 : ∀ c, (([rbrace] ++ rest).head? = some c) → isDigitC c = false := by
    intro c hc
    rw [List.singleton_append] at hc
    simp only [List.head?_cons, Option.some.injEq] at hc
    subst hc
    decide
  have e6 := parseNatChars_roundtrip m.size ([rbrace] ++ rest) hd2
  unfold parseItem
  simp only [h1, parseLit_self, e2, e3, e4, e6]

theorem parseItemsAux_step_comma (f : Nat) (m : FileMeta) (r2 : List Char)
    (s : List Char) (hps : parseItem s = some (m, ',' :: r2)) :
    parseItemsAux (f + 1) s = match parseItemsAux f r2 with
      | some (ms, r3) => some (m :: ms, r3)
      | none => none := by
  show (match parseItem s with
    | none => none
    | some (m, r) =>
      match r with
      | ',' :: r2 =>
        (match parseItemsAux f r2 with
          | some (ms, r3) => some (m :: ms, r3)
          | none => none)
      | _ => some ([m], r)) = _
  rw [hps]
  rfl

theorem parseItemsAux_step_last (f : Nat) (m : FileMeta) (r : List Char)
    (s : List Char) (hps : parseItem s = some (m, r))
    (hr : ∀ c, r.head? = some c → c ≠ ',') :
    parseItemsAux (f + 1) s = some ([m], r) := by
  show (match parseItem s with
    | none => none
    | some (m, r) =>
      match r with
      | ',' :: r2 =>
        (match parseItemsAux f r2 with
          | some (ms, r3) => some (m :: ms, r3)
          | none => none)
      | _ => some ([m], r)) = some ([m], r)
  rw [hps]
  cases r with
  | nil => rfl
  | cons c r' =>
    have hc : c ≠ ',' := hr c rfl
    split
    · rename_i heq
      exact absurd heq (by simp)
    · rename_i m2 r2 heq
      injection heq with h1
      injection h1 with hm hrr
      subst hm
      subst hrr
      split
      · rename_i heq2
        injection heq2 with h2 h3
        exact absurd h2 hc
      · rfl

theorem parseItemsAux_roundtrip :
    ∀ (items : List FileMeta) (fuel : Nat) (rest : List Char),
      items ≠ [] → items.length ≤ fuel →
      (∀ m ∈ items, jsonSafeName m.name = true) →
      (∀ c, rest.head? = some c → c ≠ ',') →
      parseItemsAux fuel (joinChunks [','] (items.map encItem) ++ rest)
        = some (items, rest) := by
  intro items
  induction items with
  | nil => intro fuel rest hne _ _ _; exact absurd rfl hne
  | cons m ms ih =>
    intro fuel rest hne hfuel hsafe hrest
    obtain ⟨f, rfl⟩ : ∃ f, fuel = f + 1 :=
      ⟨fuel - 1, by simp at hfuel; omega⟩
    have hm := hsafe m (List.mem_cons_self _ _)
    cases ms with
    | nil =>
      have hj : joinChunks [','] ([m].map encItem) ++ rest = encItem m ++ rest := rfl
      rw [hj, parseItemsAux_step_last f m rest _ (parseItem_roundtrip m hm rest) hrest]
    | cons m' ms' =>
      have hj : joinChunks [','] ((m :: m' :: ms').map encItem) ++ rest
          = encItem m ++ (',' :: (joinChunks [','] ((m' :: ms').map encItem) ++ rest)) := by
        show (encItem m ++ [','] ++ joinChunks [','] ((m' :: ms').map encItem)) ++ rest = _
        simp [List.append_assoc]
      rw [hj, parseItemsAux_step_comma f m _ _ (parseItem_roundtrip m hm _),
        ih f rest (by simp) (by simp at hfuel ⊢; omega)
          (fun x hx => hsafe x (List.mem_cons_of_mem _ hx)) hrest]

theorem length_le_joinChunks : ∀ items : List FileMeta,
    items.length ≤ (joinChunks [','] (items.map encItem)).length + 1 := by
  intro items
  induction items with
  | nil => simp
  | cons m ms ih =>
    cases ms with
    | nil => simp
    | cons m' ms' =>
      show (m :: m' :: ms').length
        ≤ ((encItem m ++ [','] ++ joinChunks [','] ((m' :: ms').map encItem))).length + 1
      have henc : 0 < (encItem m).length :=
        List.length_pos.mpr (by simp [encItem])
      simp only [List.length_append, List.length_cons, List.length_singleton] at *
      omega

theorem parseBlob_roundtrip (items : List FileMeta)
    (hsafe : ∀ m ∈ items, jsonSafeName m.name = true) :
    parseBlob (blobChars items) = some items := by
  cases items with
  | nil => rfl
  | cons m ms =>
    obtain ⟨t, ht⟩ : ∃ t, joinChunks [','] ((m :: ms).map encItem) = lbrace :: t := by
      cases ms with
      | nil => exact ⟨_, rfl⟩
      | cons m' ms' => exact ⟨_, rfl⟩
    show parseBlob ('[' :: (joinChunks [','] ((m :: ms).map encItem) ++ [']']))
      = some (m :: ms)
    rw [ht, List.cons_append]
    have hstep : parseBlob ('[' :: lbrace :: (t ++ [']']))
        = (match parseItemsAux ((lbrace :: (t ++ [']'])).length + 1)
            (lbrace :: (t ++ [']'])) with
          | some (ms, [']']) => some ms
          | _ => none) := rfl
    rw [hstep, ← List.cons_append, ← ht]
    rw [parseItemsAux_roundtrip (m :: ms) _ [']'] (by simp)
      (by
        have := length_le_joinChunks (m :: ms)
        simp only [List.length_append, List.length_singleton]
        omega)
      hsafe
      (by
        intro c hc
        simp only [List.head?_cons, Option.some.injEq] at hc
        subst hc
        decide)]
    rfl

theorem blobChars_inj (a b : List FileMeta)
    (ha : ∀ m ∈ a, jsonSafeName m.name = true)
    (hb : ∀ m ∈ b, jsonSafeName m.name = true)
    (h : blobChars a = blobChars b) : a = b := by
  have hra := parseBlob_roundtrip a ha
  rw [h, parseBlob_roundtrip b hb] at hra
  exact ((Option.some.injEq _ _).mp hra).symm

theorem mem_joinChunks (sep : List Char) :
    ∀ (l : List (List Char)) (c : Char), c ∈ joinChunks sep l →
      c ∈ sep ∨ ∃ x ∈ l, c ∈ x := by
  intro l
  induction l with
  | nil => intro c hc; simp [joinChunks] at hc
  | cons p tail ih =>
    intro c hc
    cases tail with
    | nil => exact Or.inr ⟨p, List.mem_singleton.mpr rfl, hc⟩
    | cons q r =>
      show c ∈ sep ∨ ∃ x ∈ p :: q :: r, c ∈ x
      have hc' : c ∈ (p ++ sep) ++ joinChunks sep (q :: r) := hc
      rcases List.mem_append.mp hc' with hc2 | hc2
      · rcases List.mem_append.mp hc2 with hc3 | hc3
        · exact Or.inr ⟨p, List.mem_cons_self _ _, hc3⟩
        · exact Or.inl hc3
      · rcases ih c hc2 with hs | ⟨x, hx, hcx⟩
        · exact Or.inl hs
        · exact Or.inr ⟨x, List.mem_cons_of_mem _ hx, hcx⟩

theorem natChars_ascii (n : Nat) : ∀ c ∈ natChars n, c.toNat < 128 := by
  intro c hc
  have := (natChars_spec n).2.1 c hc
  simp only [isDigitC, Bool.and_eq_true, decide_eq_true_eq] at this
  omega

theorem intChars_ascii (i : Int) : ∀ c ∈ intChars i, c.toNat < 128 := by
  intro c hc
  unfold intChars at hc
  split at hc
  · rcases List.mem_cons.mp hc with rfl | hc
    · decide
    · exact natChars_ascii _ c hc
  · exact natChars_ascii _ c hc

theorem encItem_ascii (m : FileMeta) (hs : jsonSafeName m.name = true) :
    ∀ c ∈ encItem m, c.toNat < 128 := by
  have h1 : ∀ c ∈ ("\"mtime\":".data : List Char), c.toNat < 128 := by decide
  have h2 : ∀ c ∈ (",\"name\":".data : List Char), c.toNat < 128 := by decide
  have h3 : ∀ c ∈ (",\"size\":".data : List Char), c.toNat < 128 := by decide
  have h4 : ∀ c ∈ m.name.data, c.toNat < 128 := by
    intro c hc
    obtain ⟨_, p2, _, _⟩ := safeChar_props c ((List.all_eq_true.mp hs) c hc)
    omega
  intro c hc
  rw [show encItem m = lbrace :: ("\"mtime\":".data ++ intChars m.mtime
      ++ ",\"name\":".data ++ ('"' :: m.name.data ++ ['"'])
      ++ ",\"size\":".data ++ natChars m.size ++ [rbrace]) from by
    unfold encItem
    rw [jsonQuoteA_safe m.name hs]
    simp [List.cons_append, List.append_assoc]] at hc
  rcases List.mem_cons.mp hc with rfl | hc
  · decide
  rcases List.mem_append.mp hc with hc | hc
  · rcases List.mem_append.mp hc with hc | hc
    · rcases List.mem_append.mp hc with hc | hc
      · rcases List.mem_append.mp hc with hc | hc
        · rcases List.mem_append.mp hc with hc | hc
          · rcases List.mem_append.mp hc with hc | hc
            · exact h1 c hc
            · exact intChars_ascii m.mtime c hc
          · exact h2 c hc
        · rcases List.mem_append.mp hc with hc | hc
          · rcases List.mem_cons.mp hc with rfl | hc
            · decide
            · exact h4 c hc
          · rw [List.mem_singleton] at hc
            subst hc
            decide
      · exact h3 c hc
    · exact natChars_ascii m.size c hc
  · rw [List.mem_singleton] at hc
    subst hc
    decide

theorem blobChars_ascii (items : List FileMeta)
    (hsafe : ∀ m ∈ items, jsonSafeName m.name = true) :
    ∀ c ∈ blobChars items, c.toNat < 128 := by
  intro c hc
  unfold blobChars at hc
  rcases List.mem_cons.mp hc with rfl | hc
  · decide
  rcases List.mem_append.mp hc with hc | hc
  · rcases mem_joinChunks [','] _ c hc with hs | ⟨x, hx, hcx⟩
    · rw [List.mem_singleton] at hs
      subst hs
      decide
    · obtain ⟨m, hm, rfl⟩ := List.mem_map.mp hx
      exact encItem_ascii m (hsafe m hm) c hcx
  · rw [List.mem_singleton] at hc
    subst hc
    decide

theorem utf8Bytes_ascii : ∀ l : List Char, (∀ c ∈ l, c.toNat < 128) →
    utf8Bytes l = l.map Char.toNat := by
  intro l
  induction l with
  | nil => intro _; rfl
  | cons c l' ih =>
    intro h
    have hc : utf8Char c = [c.toNat] := by
      unfold utf8Char
      rw [if_pos (h c (List.mem_cons_self _ _))]
    show (List.map utf8Char (c :: l')).flatten = _
    rw [List.map_cons, List.flatten_cons, hc,
      show (List.map utf8Char l').flatten = utf8Bytes l' from rfl,
      ih (fun d hd => h d (List.mem_cons_of_mem _ hd)), List.map_cons,
      List.singleton_append]

theorem char_toNat_injective : Function.Injective Char.toNat :=
  fun _ _ h => Char.ext (UInt32.ext h)

theorem compressStep_length (s : List Nat) (k w : Nat) :
    (compressStep s k w).length = s.length := by
  unfold compressStep
  split
  · simp
  · rfl

theorem foldl_compressStep_length (l : List (Nat × Nat)) :
    ∀ s : List Nat,
      (l.foldl (fun s kw => compressStep s kw.1 kw.2) s).length = s.length := by
  induction l with
  | nil => intro s; rfl
  | cons kw l' ih =>
    intro s
    rw [List.foldl_cons, ih, compressStep_length]

theorem compressBlock_length (hv block : List Nat) :
    (compressBlock hv block).length = hv.length := by
  unfold compressBlock
  rw [List.length_zipWith, foldl_compressStep_length, min_self]

theorem foldl_compressBlock_length (bs : List (List Nat)) :
    ∀ hv : List Nat, (bs.foldl compressBlock hv).length = hv.length := by
  induction bs with
  | nil => intro hv; rfl
  | cons b bs' ih =>
    intro hv
    rw [List.foldl_cons, ih, compressBlock_length]

theorem sha256Words_length (msg : List Nat) : (sha256Words msg).length = 8 := by
  unfold sha256Words
  rw [foldl_compressBlock_length]
  rfl

theorem M32_pos : 0 < M32 := by decide

theorem add32_lt (a b : Nat) : add32 a b < M32 := Nat.mod_lt _ M32_pos

theorem mem_zipWith_add32_lt :
    ∀ (xs ys : List Nat) (w : Nat), w ∈ List.zipWith add32 xs ys → w < M32 := by
  intro xs
  induction xs with
  | nil => intro ys w hw; simp at hw
  | cons x xs' ih =>
    intro ys w hw
    cases ys with
    | nil => simp at hw
    | cons y ys' =>
      rw [List.zipWith_cons_cons] at hw
      rcases List.mem_cons.mp hw with rfl | hw
      · exact add32_lt x y
      · exact ih ys' w hw

theorem foldl_compressBlock_mem_lt :
    ∀ (bs : List (List Nat)) (hv : List Nat), (∀ w ∈ hv, w < M32) →
      ∀ w ∈ bs.foldl compressBlock hv, w < M32 := by
  intro bs
  induction bs with
  | nil => intro hv h w hw; exact h w hw
  | cons b bs' ih =>
    intro hv _ w hw
    rw [List.foldl_cons] at hw
    exact ih _ (fun u hu => mem_zipWith_add32_lt _ _ u hu) w hw

theorem sha256Words_mem_lt (msg : List Nat) : ∀ w ∈ sha256Words msg, w < M32 := by
  unfold sha256Words
  exact foldl_compressBlock_mem_lt _ H256 (by decide)

theorem wordsToNat_lt : ∀ l : List Nat, wordsToNat l < M32 ^ l.length := by
  intro l
  induction l with
  | nil => decide
  | cons w l' ih =>
    show w % M32 * M32 ^ l'.length + wordsToNat l' < M32 ^ (l'.length + 1)
    have h1 : w % M32 < M32 := Nat.mod_lt _ M32_pos
    calc w % M32 * M32 ^ l'.length + wordsToNat l'
        < w % M32 * M32 ^ l'.length + M32 ^ l'.length := by omega
      _ = (w % M32 + 1) * M32 ^ l'.length := by ring
      _ ≤ M32 * M32 ^ l'.length := Nat.mul_le_mul_right _ (by omega)
      _ = M32 ^ (l'.length + 1) := by ring

theorem wordsToNat_inj : ∀ (a b : List Nat), a.length = b.length →
    (∀ w ∈ a, w < M32) → (∀ w ∈ b, w < M32) →
    wordsToNat a = wordsToNat b → a = b := by
  intro a
  induction a with
  | nil =>
    intro b hlen _ _ _
    cases b with
    | nil => rfl
    | cons v b' => simp at hlen
  | cons w a' ih =>
    intro b hlen ha hb heq
    cases b with
    | nil => simp at hlen
    | cons v b' =>
      have hlen' : a'.length = b'.length := by
        simp only [List.length_cons] at hlen
        omega
      have hwlt : w < M32 := ha w (List.mem_cons_self _ _)
      have hvlt : v < M32 := hb v (List.mem_cons_self _ _)
      have hma : wordsToNat a' < M32 ^ a'.length := wordsToNat_lt a'
      have hmb : wordsToNat b' < M32 ^ a'.length := by
        rw [hlen']
        exact wordsToNat_lt b'
      have heq' : w * M32 ^ a'.length + wordsToNat a'
          = v * M32 ^ a'.length + wordsToNat b' := by
        have h0 : wordsToNat (w :: a') = wordsToNat (v :: b') := heq
        show _ = _
        rw [show wordsToNat (w :: a') = w % M32 * M32 ^ a'.length + wordsToNat a'
            from rfl,
          show wordsToNat (v :: b') = v % M32 * M32 ^ b'.length + wordsToNat b'
            from rfl, Nat.mod_eq_of_lt hwlt, Nat.mod_eq_of_lt hvlt, hlen'] at h0
        rw [hlen']
        exact h0
      have hP : 0 < M32 ^ a'.length := Nat.pos_pow_of_pos _ M32_pos
      have hwv : w = v := by
        have d1 : (w * M32 ^ a'.length + wordsToNat a') / M32 ^ a'.length = w := by
          rw [Nat.add_comm, Nat.add_mul_div_right _ _ hP,
            Nat.div_eq_of_lt hma]
          omega
        have d2 : (v * M32 ^ a'.length + wordsToNat b') / M32 ^ a'.length = v := by
          rw [Nat.add_comm, Nat.add_mul_div_right _ _ hP,
            Nat.div_eq_of_lt hmb]
          omega
        rw [← d1, ← d2, heq']
      subst hwv
      have hrest : wordsToNat a' = wordsToNat b' := by omega
      rw [ih b' hlen' (fun u hu => ha u (List.mem_cons_of_mem _ hu))
        (fun u hu => hb u (List.mem_cons_of_mem _ hu)) hrest]

set_option maxHeartbeats 1000000 in
/-- C7 (counterexample): it is not true that any mtime change changes the
SHA-256 hash.  The digest space has at most `M32 ^ 8` values while mtimes
range over all integers, so by pigeonhole two distinct mtimes of the same
file yield the same fingerprint. -/
theorem C7_counterexample :
    ∃ t₁ t₂ : Int, t₁ ≠ t₂ ∧
      dataset_fingerprint [⟨"a", 1, t₁⟩] = dataset_fingerprint [⟨"a", 1, t₂⟩] := by
  obtain ⟨t₁, t₂, hne, heq⟩ := Finite.exists_ne_map_eq_of_infinite
    (fun t : Int =>
      (⟨wordsToNat (sha256Words (fingerprintBytes [⟨"a", 1, t⟩])), by
        have h := wordsToNat_lt (sha256Words (fingerprintBytes [⟨"a", 1, t⟩]))
        rwa [sha256Words_length] at h⟩ : Fin (M32 ^ 8)))
  refine ⟨t₁, t₂, hne, ?_⟩
  have hval : wordsToNat (sha256Words (fingerprintBytes [⟨"a", 1, t₁⟩]))
      = wordsToNat (sha256Words (fingerprintBytes [⟨"a", 1, t₂⟩])) :=
    congrArg Fin.val heq
  have hw : sha256Words (fingerprintBytes [⟨"a", 1, t₁⟩])
      = sha256Words (fingerprintBytes [⟨"a", 1, t₂⟩]) :=
    wordsToNat_inj _ _ (by rw [sha256Words_length, sha256Words_length])
      (sha256Words_mem_lt _) (sha256Words_mem_lt _) hval
  show sha256hex _ = sha256hex _
  unfold sha256hex
  rw [hw]

/-- C7 (amended): the fingerprint is deterministic and equals SHA-256 over
the canonical ASCII JSON encoding of the name-sorted per-file
(mtime, name, size) records; and the hashed byte string itself is
injective: for JSON-safe file names, any change to the name-sorted
manifest (addition, removal, or modification of name, size or mtime)
changes the bytes fed to SHA-256.  The 256-bit hash value itself cannot
be injective on the unbounded manifest space (`C7_counterexample`). -/
theorem C7_thm (files files' : List FileMeta)
    (hsafe : ∀ m ∈ files, jsonSafeName m.name = true)
    (hsafe' : ∀ m ∈ files', jsonSafeName m.name = true) :
    dataset_fingerprint files
      = sha256hex (utf8Bytes (blobChars (sortFilesByName files)))
    ∧ (sortFilesByName files ≠ sortFilesByName files' →
        fingerprintBytes files ≠ fingerprintBytes files') := by
  have hms : ∀ m ∈ sortFilesByName files, jsonSafeName m.name = true := by
    intro m hm
    exact hsafe m ((pySorted_perm _ files).mem_iff.mp hm)
  have hms' : ∀ m ∈ sortFilesByName files', jsonSafeName m.name = true := by
    intro m hm
    exact hsafe' m ((pySorted_perm _ files').mem_iff.mp hm)
  constructor
  · rfl
  · intro hne hbytes
    apply hne
    have h1 : utf8Bytes (blobChars (sortFilesByName files))
        = utf8Bytes (blobChars (sortFilesByName files')) := hbytes
    rw [utf8Bytes_ascii _ (blobChars_ascii _ hms),
      utf8Bytes_ascii _ (blobChars_ascii _ hms')] at h1
    have hblob : blobChars (sortFilesByName files)
        = blobChars (sortFilesByName files') :=
      List.map_injective_iff.mpr char_toNat_injective h1
    exact blobChars_inj _ _ hms hms' hblob

/-- C7 (witness): on two concrete manifests with JSON-safe names, the
fingerprint is the hash of the canonical sorted encoding, and the differing
manifests produce different hashed byte strings. -/
theorem C7_witness :
    dataset_fingerprint [(⟨"b", 2, 5⟩ : FileMeta), ⟨"a", 1, 3⟩]
      = sha256hex (utf8Bytes (blobChars
          (sortFilesByName [(⟨"b", 2, 5⟩ : FileMeta), ⟨"a", 1, 3⟩])))
    ∧ fingerprintBytes [(⟨"b", 2, 5⟩ : FileMeta), ⟨"a", 1, 3⟩]
      ≠ fingerprintBytes [(⟨"a", 1, 4⟩ : FileMeta)] := by
  have h := C7_thm [⟨"b", 2, 5⟩, ⟨"a", 1, 3⟩] [⟨"a", 1, 4⟩] (by decide) (by decide)
  exact ⟨h.1, h.2 (by decide)⟩
